import Mathlib

/-!
Verification development for the agro-report extraction bot.

This file shallowly embeds the core logic of the repository:
  * `clean_string` (src/bot/src/utils.py) — the regex normalization pipeline,
  * `ReportBuilder._validate` / `build` (src/bot/src/report_builder.py),
  * the pydantic field validators over the allowed-entity vocabularies,
  * the finalization and interactive-correction logic of
    `AgroReportTelegramBot.prompt` (src/bot/src/telegram_bot.py),
  * `order_points` (src/bot/src/image_utils.py),
  * `handle_message` (src/bot/src/worker.py) and `send_and_receive` /
    `is_allowed` (src/bot/src/utils.py).

External collaborators (the Mistral inference backend, `json.loads`,
`ast.literal_eval`, pydantic's validation driver, `json.dumps`) are modelled
as parameters of an `Env` structure: the embedded control flow is proved
correct for every behaviour of those collaborators.

Machine integers do not occur in the embedded fragments; Python numbers are
modelled as rationals (the claims proved here never depend on
floating-point rounding, only on key presence, control flow and string
content).
-/

namespace AgroSpec

/-! ## Character classes

`pyIsSpace` models Python's `\s` character class (and `str.strip`'s default
whitespace set) for unicode strings: ASCII whitespace, the C1 separators,
and the unicode space separators. -/

def pyIsSpace (c : Char) : Bool :=
  c = ' ' || c = '\t' || c = '\n' || c = '\r' || c = '\x0b' || c = '\x0c' ||
  c = '\x1c' || c = '\x1d' || c = '\x1e' || c = '\x1f' || c = '\x85' ||
  c = '\xa0' || c = ' ' || c = ' ' || c = ' ' || c = ' ' ||
  c = ' ' || c = ' ' || c = ' ' || c = ' ' || c = ' ' ||
  c = ' ' || c = ' ' || c = ' ' || c = ' ' || c = ' ' ||
  c = ' ' || c = ' ' || c = '　'

/-- The backtick character (written by code so that the source file itself
contains none). -/
def isBT (c : Char) : Bool := c = '\x60'

/-- Closing JSON brackets, the first group of `([}\]])\s*([{\[])`. -/
def isClose (c : Char) : Bool := c = '\x7d' || c = ']'

/-- Opening JSON brackets, the second group of `([}\]])\s*([{\[])`. -/
def isOpen (c : Char) : Bool := c = '\x7b' || c = '['

/-! ## The `clean_string` pipeline (src/bot/src/utils.py lines 274-283)

Each `re.sub` call is embedded as one scanner over the character list,
with the regex engine's left-to-right, non-overlapping scan semantics:
on a failed match the scan advances one character; on a successful match
it resumes after the consumed text. -/

/-- `re.sub(r"```json|```", "", s)`: at each position try to remove the
7-character fence-with-language marker, then the bare 3-character fence. -/
def stripFences : List Char → List Char
  | c1 :: c2 :: c3 :: c4 :: c5 :: c6 :: c7 :: rest =>
    if isBT c1 && isBT c2 && isBT c3 then
      if c4 = 'j' && c5 = 's' && c6 = 'o' && c7 = 'n' then stripFences rest
      else stripFences (c4 :: c5 :: c6 :: c7 :: rest)
    else c1 :: stripFences (c2 :: c3 :: c4 :: c5 :: c6 :: c7 :: rest)
  | c1 :: c2 :: c3 :: rest =>
    if isBT c1 && isBT c2 && isBT c3 then stripFences rest
    else c1 :: stripFences (c2 :: c3 :: rest)
  | c1 :: rest => c1 :: stripFences rest
  | [] => []

/-- `re.sub(r"\\n", "", s)`: remove each two-character backslash-`n`
sequence. -/
def stripEscN : List Char → List Char
  | [] => []
  | [c] => [c]
  | c :: d :: rest =>
    if c = '\\' && d = 'n' then stripEscN rest
    else c :: stripEscN (d :: rest)

/-- `re.sub(r"\n", "", s)`: remove every literal newline. -/
def removeNL (l : List Char) : List Char := l.filter (fun c => c ≠ '\n')

/-- `re.sub(r"\s+", " ", s)`: collapse each maximal whitespace run to one
space.  A whitespace character followed by more whitespace is dropped; the
last character of a run emits the single space. -/
def collapseWs : List Char → List Char
  | [] => []
  | c :: rest =>
    if pyIsSpace c then
      match rest with
      | [] => [' ']
      | d :: _ => if pyIsSpace d then collapseWs rest else ' ' :: collapseWs rest
    else c :: collapseWs rest

/-- `re.sub(r"\t", " ", s)`: replace every literal tab by a space. -/
def replaceTab (l : List Char) : List Char :=
  l.map (fun c => if c = '\t' then ' ' else c)

/-- `re.sub(r"\\t", " ", s)`: replace each two-character backslash-`t`
sequence by one space. -/
def stripEscT : List Char → List Char
  | [] => []
  | [c] => [c]
  | c :: d :: rest =>
    if c = '\\' && d = 't' then ' ' :: stripEscT rest
    else c :: stripEscT (d :: rest)

/-- The characters that may follow a backslash in a JSON escape,
`[^"\\/bfnrt]` complemented. -/
def goodEsc (c : Char) : Bool :=
  c = '"' || c = '\\' || c = '/' || c = 'b' || c = 'f' || c = 'n' || c = 'r' || c = 't'

/-- `re.sub(r'\\([^"\\/bfnrt])', r"\\\\\1", s)`: double a backslash that
precedes a character that is not a valid JSON escape. -/
def fixBadEscape : List Char → List Char
  | [] => []
  | [c] => [c]
  | c :: d :: rest =>
    if c = '\\' && !goodEsc d then '\\' :: '\\' :: d :: fixBadEscape rest
    else c :: fixBadEscape (d :: rest)

/-- Does the list start with optional whitespace followed by an opening
bracket?  This is the lookahead `\s*[{\[]`. -/
def hasWsOpen : List Char → Bool
  | [] => false
  | d :: r => if pyIsSpace d then hasWsOpen r else isOpen d

/-- `re.sub(r"([}\]])\s*([{\[])", r"\1,\2", s)`: insert a comma between a
closing and an opening bracket separated only by whitespace, deleting the
whitespace.  The `skip` flag is true while the scanner is inside the
whitespace consumed by a successful match (the following opening bracket
cannot itself start a match, so resuming the scan on it is equivalent to
resuming after it). -/
def insertCommasAux : Bool → List Char → List Char
  | _, [] => []
  | true, c :: rest =>
    if pyIsSpace c then insertCommasAux true rest
    else c :: insertCommasAux false rest
  | false, c :: rest =>
    if isClose c && hasWsOpen rest then c :: ',' :: insertCommasAux true rest
    else c :: insertCommasAux false rest

def insertCommas (l : List Char) : List Char := insertCommasAux false l

/-- Python `str.strip()`: drop leading and trailing whitespace. -/
def stripEnds (l : List Char) : List Char :=
  ((l.dropWhile pyIsSpace).reverse.dropWhile pyIsSpace).reverse

/-- `clean_string` (src/bot/src/utils.py lines 274-283): the nine
substitutions in source order followed by `.strip()`. -/
def cleanList (l : List Char) : List Char :=
  stripEnds (insertCommas (fixBadEscape (stripEscT (replaceTab
    (collapseWs (removeNL (stripEscN (stripFences l))))))))

def cleanString (s : String) : String := String.mk (cleanList s.data)

/-- Substring containment, Python's `pat in s` on strings. -/
def listStartsWith : List Char → List Char → Bool
  | [], _ => true
  | _ :: _, [] => false
  | p :: ps, c :: cs => p = c && listStartsWith ps cs

def listHasSub (pat : List Char) : List Char → Bool
  | [] => pat.isEmpty
  | c :: cs => listStartsWith pat (c :: cs) || listHasSub pat cs

/-! ## Python value and record model

`model_dump(exclude_none=True)` produces plain dicts whose values are
strings, ints or floats; the interactive correction writes strings into
them.  Numbers are modelled as rationals.  A record is an insertion-ordered
association list, mirroring an ordered Python dict. -/

inductive PyVal where
  | str (s : String)
  | num (q : ℚ)
  | bool (b : Bool)
  | null
  deriving DecidableEq, Repr

abbrev Record := List (String × PyVal)

/-- First-match association lookup, `d[k]` read. -/
def lookupKey (k : String) : Record → Option PyVal
  | [] => none
  | (k', v) :: rest => if k' = k then some v else lookupKey k rest

def hasKey (k : String) (r : Record) : Bool := (lookupKey k r).isSome

/-- Python dict assignment `d[k] = v`: update in place when the key exists
(insertion order kept), otherwise append at the end. -/
def setKey (r : Record) (k : String) (v : PyVal) : Record :=
  if hasKey k r then r.map (fun p => if p.1 = k then (k, v) else p)
  else r ++ [(k, v)]

/-- Python `d.pop(k, None)`: remove the key if present. -/
def popKey (k : String) (r : Record) : Record :=
  r.filter (fun p => p.1 ≠ k)

/-- Exception classes distinguished by the embedded control flow. -/
inductive PyErr where
  | valueError
  | keyError
  | typeError
  | indexError
  | jsonDecode
  | validationError
  deriving DecidableEq, Repr

/-! ## JSON values (the output of `json.loads`) -/

inductive Json where
  | null
  | bool (b : Bool)
  | num (q : ℚ)
  | str (s : String)
  | arr (items : List Json)
  | obj (kvs : List (String × Json))
  deriving Repr

def Json.lookup (k : String) : List (String × Json) → Option Json
  | [] => none
  | (k', v) :: rest => if k' = k then some v else Json.lookup k rest

/-- Python dict assignment on a JSON object (key update preserves
insertion order, new keys append). -/
def Json.set (kvs : List (String × Json)) (k : String) (v : Json) :
    List (String × Json) :=
  if (Json.lookup k kvs).isSome then
    kvs.map (fun p => if p.1 = k then (k, v) else p)
  else kvs ++ [(k, v)]

/-! ## ISO date parsing and reformatting

`datetime.fromisoformat` is an external stdlib collaborator; it is
modelled here on the calendar-date core `YYYY-MM-DD` (the form the spec's
scenario exercises): exactly ten characters, all-digit components,
month 1-12, day within the month (Gregorian leap rule).
`strftime("%d.%m.%Y")` zero-pads day and month to two digits. -/

def isLeap (y : Nat) : Bool := (y % 4 = 0 && y % 100 ≠ 0) || y % 400 = 0

def daysInMonth (y m : Nat) : Nat :=
  if m = 2 then (if isLeap y then 29 else 28)
  else if m = 4 || m = 6 || m = 9 || m = 11 then 30
  else 31

def digitVal (c : Char) : Option Nat :=
  if c.isDigit then some (c.toNat - '0'.toNat) else none

def digitsVal : List Char → Option Nat
  | [] => some 0
  | _ => none

def digits2 (a b : Char) : Option Nat := do
  pure ((← digitVal a) * 10 + (← digitVal b))

def digits4 (a b c d : Char) : Option Nat := do
  pure ((← digitVal a) * 1000 + (← digitVal b) * 100 + (← digitVal c) * 10 + (← digitVal d))

/-- Model of `datetime.fromisoformat` restricted to `YYYY-MM-DD`. -/
def parseIso (s : String) : Option (Nat × Nat × Nat) :=
  match s.data with
  | [y1, y2, y3, y4, h1, m1, m2, h2, d1, d2] =>
    if h1 = '-' && h2 = '-' then do
      let y ← digits4 y1 y2 y3 y4
      let m ← digits2 m1 m2
      let d ← digits2 d1 d2
      if 1 ≤ m && m ≤ 12 && 1 ≤ d && d ≤ daysInMonth y m && 1 ≤ y then
        some (y, m, d)
      else none
    else none
  | _ => none

def pad2 (n : Nat) : String := if n < 10 then "0" ++ toString n else toString n

/-- `parsed_date.strftime("%d.%m.%Y")`. -/
def formatDMY (y m d : Nat) : String :=
  pad2 d ++ "." ++ pad2 m ++ "." ++ toString y

/-! ## `ReportBuilder._validate` and `build` (src/bot/src/report_builder.py)

External collaborators are the fields of `Env`:
  * `stage1 raw` — `model.predict(initial_prompt, raw)`,
  * `stage2 rec` — `model.predict(final_prompt, str(rec))`,
  * `fixFields parsed` — `_correct_fields`: one repair inference call
    templated with the parsed structure,
  * `fixJson raw` — `_correct_json`: one repair inference call templated
    with the broken raw text,
  * `parse` — `json.loads`, `literalEval` — `ast.literal_eval`,
  * `modelValidate` — pydantic `OperationList.model_validate` followed by
    `model_dump(exclude_none=True)`,
  * `dumps` — `json.dumps` on the list of stage-2 raw outputs. -/

def ERROR_TEXT : String :=
  "Ваш отчёт не может быть обработан 😭 Попробуйте переформулировать текст или приложить фото таблицы хорошего качества."

def refusalPhrase : String := "Отчёт не может быть обработан."

def sentinelValue : String := "Не определено"

def harvestOperation : String := "Уборка"

def dateKey : String := "Дата"

def operationKey : String := "Операция"

def dataKey : String := "Данные"

def refusalIn (s : String) : Bool := listHasSub refusalPhrase.data s.data

structure Env where
  stage1 : String → String
  stage2 : Record → String
  fixFields : Json → String
  fixJson : String → String
  parse : String → Except Unit Json
  literalEval : String → Except Unit Json
  modelValidate : Json → Except Unit (List Record)
  dumps : List String → String

/-- The trace of one `_validate` call: its outcome (`Except.error e`
embeds an exception of class `e` propagating out of `_validate`) together
with how many field-fix (`_correct_fields`) and JSON-fix (`_correct_json`)
inference calls were issued. -/
structure VTrace where
  result : Except PyErr (List Record)
  fixFieldsCalls : Nat
  fixJsonCalls : Nat
  deriving Repr

/-- The `isinstance(parsed, list)` re-decode pass: any array element that
is itself a string is cleaned and parsed again; a parse failure is a
`json.decoder.JSONDecodeError`. -/
def doubleDecode (env : Env) : Json → Except PyErr Json
  | .arr items =>
    (items.mapM (fun it =>
      match it with
      | Json.str s =>
        (env.parse (cleanString s)).mapError (fun _ => PyErr.jsonDecode)
      | _ => (.ok it : Except PyErr Json))).map Json.arr
  | j => .ok j

/-- One element of the date-reformat loop: `item["Дата"]` is looked up
(`KeyError` when absent, `TypeError` when the item is not a dict or the
value is not a string), parsed with `fromisoformat`, and on success
rewritten with `strftime("%d.%m.%Y")`; the `ValueError` of an unparsable
string is swallowed by the inner `except ValueError: pass`. -/
def dateFix : Json → Except PyErr Json
  | .obj kvs =>
    match Json.lookup dateKey kvs with
    | none => .error .keyError
    | some (.str s) =>
      match parseIso s with
      | some (y, m, d) => .ok (.obj (Json.set kvs dateKey (.str (formatDMY y m d))))
      | none => .ok (.obj kvs)
    | some _ => .error .typeError
  | _ => .error .typeError

/-- The `for item in parsed` date loop.  Iterating a non-list JSON value:
an empty object or empty string loops zero times; any other non-list value
raises `TypeError` on the first item access (dict iteration yields string
keys, string iteration yields characters, scalars are not iterable). -/
def datePass : Json → Except PyErr Json
  | .arr items => (items.mapM dateFix).map .arr
  | .obj [] => .ok (.obj [])
  | .str "" => .ok (.str "")
  | _ => .error .typeError

/-- The shared tail of both repair branches:
`OperationList.model_validate(ast.literal_eval(clean_string(correction)))`.
A `literal_eval` failure propagates as `ValueError`, a second validation
failure propagates as the pydantic `ValidationError`. -/
def repairTail (env : Env) (correction : String) : Except PyErr (List Record) :=
  match env.literalEval (cleanString correction) with
  | .error _ => .error .valueError
  | .ok j =>
    match env.modelValidate j with
    | .ok recs => .ok recs
    | .error _ => .error .validationError

/-- `ReportBuilder._validate` (src/bot/src/report_builder.py lines
101-138).  The refusal phrase raises a `ValueError` that matches neither
`except ValidationError` nor `except json.decoder.JSONDecodeError`, so the
final `except Exception: raise` re-raises it.  A `JSONDecodeError` (outer
or inner parse) triggers `_correct_json(reports)`; a pydantic
`ValidationError` triggers `_correct_fields(parsed)` with the
post-date-pass structure; `KeyError`/`TypeError` from the date loop are
re-raised. -/
def validateReports (env : Env) (reports : String) : VTrace :=
  let cleaned := cleanString reports
  if refusalIn cleaned then ⟨.error .valueError, 0, 0⟩
  else
    match env.parse cleaned with
    | .error _ => ⟨repairTail env (env.fixJson reports), 0, 1⟩
    | .ok parsed0 =>
      match doubleDecode env parsed0 with
      | .error _ => ⟨repairTail env (env.fixJson reports), 0, 1⟩
      | .ok parsed1 =>
        match datePass parsed1 with
        | .error e => ⟨.error e, 0, 0⟩
        | .ok parsed2 =>
          match env.modelValidate parsed2 with
          | .ok recs => ⟨.ok recs, 0, 0⟩
          | .error _ => ⟨repairTail env (env.fixFields parsed2), 1, 0⟩

/-- The four internal-alias renames of `build` on one record:
`item["За день, га"] = item.pop("За_день_га")` and so on; `pop` without a
default raises `KeyError` when the alias key is absent. -/
def aliasPairs : List (String × String) :=
  [("За_день_га", "За день, га"),
   ("С_начала_операции_га", "С начала операции, га"),
   ("Вал_за_день_ц", "Вал за день, ц"),
   ("Вал_с_начала_ц", "Вал с начала, ц")]

/-- One rename statement `item[display] = item.pop(alias)`:
`pop` without a default raises `KeyError` on a missing key. -/
def renameStep (aliasKey display : String) (r : Record) : Except PyErr Record :=
  match lookupKey aliasKey r with
  | none => .error .keyError
  | some v => .ok (setKey (popKey aliasKey r) display v)

def renameItem (r : Record) : Except PyErr Record :=
  (((renameStep "За_день_га" "За день, га" r).bind
    (renameStep "С_начала_операции_га" "С начала операции, га")).bind
    (renameStep "Вал_за_день_ц" "Вал за день, ц")).bind
    (renameStep "Вал_с_начала_ц" "Вал с начала, ц")

def renameAll (recs : List Record) : Except PyErr (List Record) :=
  recs.mapM renameItem

/-- The trace of one `build` call.  `Except.error e` is an exception of
class `e` escaping `build`; `.ok (.inl ERROR_TEXT)` is the error-sentinel
return from the rename `except` clause; `.ok (.inr recs)` is a successful
record list. -/
structure BuildTrace where
  result : Except PyErr (String ⊕ List Record)
  fixFieldsCalls : Nat
  fixJsonCalls : Nat
  deriving Repr

/-- The try/except around the rename pass at the end of `build` (lines
180-189): any exception yields the `ERROR_TEXT` sentinel. -/
def buildFinalize (recs : List Record) : String ⊕ List Record :=
  match renameAll recs with
  | .ok out => .inr out
  | .error _ => .inl ERROR_TEXT

/-- `ReportBuilder.build` (src/bot/src/report_builder.py lines 165-189):
stage 1 validates the single initial inference output; stage 2 issues one
inference call per stage-1 record, dumps the raw outputs to JSON and
validates that; then the rename pass runs under its own try/except.
Exceptions escaping `_validate` propagate out of `build` uncaught. -/
def buildRun (env : Env) (reportData : String) : BuildTrace :=
  let t1 := validateReports env (env.stage1 reportData)
  match t1.result with
  | .error e => ⟨.error e, t1.fixFieldsCalls, t1.fixJsonCalls⟩
  | .ok recs1 =>
    let raw2 := recs1.map env.stage2
    let t2 := validateReports env (env.dumps raw2)
    match t2.result with
    | .error e => ⟨.error e, t1.fixFieldsCalls + t2.fixFieldsCalls,
                   t1.fixJsonCalls + t2.fixJsonCalls⟩
    | .ok recs2 => ⟨.ok (buildFinalize recs2),
                    t1.fixFieldsCalls + t2.fixFieldsCalls,
                    t1.fixJsonCalls + t2.fixJsonCalls⟩

/-! ## `order_points` (src/bot/src/image_utils.py lines 9-34)

Points are integer pixel coordinates `(x, y)`.  `np.argmin`/`np.argmax`
return the index of the *first* extremal element; `np.diff(pts, axis=1)`
computes `y - x` for each row. -/

abbrev Point := Int × Int

/-- Index of the first element minimizing `f` (`np.argmin`: ties resolve
to the earliest index). -/
def argminIdx (f : Point → Int) : List Point → Nat
  | [] => 0
  | [_] => 0
  | p :: q :: rest =>
    let r := argminIdx f (q :: rest)
    if f ((q :: rest).getD r (0, 0)) < f p then r + 1 else 0

/-- Index of the first element maximizing `f` (`np.argmax`: ties resolve
to the earliest index). -/
def argmaxIdx (f : Point → Int) : List Point → Nat
  | [] => 0
  | [_] => 0
  | p :: q :: rest =>
    let r := argmaxIdx f (q :: rest)
    if f p < f ((q :: rest).getD r (0, 0)) then r + 1 else 0

def ptSum (p : Point) : Int := p.1 + p.2

/-- `np.diff` of the row `[x, y]`: `y - x`. -/
def ptDiff (p : Point) : Int := p.2 - p.1

/-- `order_points`: `rect[0] = pts[argmin(sum)]`,
`rect[2] = pts[argmax(sum)]`, `rect[1] = pts[argmin(diff)]`,
`rect[3] = pts[argmax(diff)]`, returned as
`[top-left, top-right, bottom-right, bottom-left]`. -/
def orderPoints (pts : List Point) : List Point :=
  [pts.getD (argminIdx ptSum pts) (0, 0),
   pts.getD (argminIdx ptDiff pts) (0, 0),
   pts.getD (argmaxIdx ptSum pts) (0, 0),
   pts.getD (argmaxIdx ptDiff pts) (0, 0)]

/-- The corner-ordering rule as the spec words it: top-left minimizes
`x + y`, top-right minimizes `x − y`, bottom-right maximizes `x + y`,
bottom-left maximizes `x − y`.  Kept separate from `orderPoints` (which
embeds the code) so the two can be compared. -/
def orderPointsSpec (pts : List Point) : List Point :=
  [pts.getD (argminIdx ptSum pts) (0, 0),
   pts.getD (argminIdx (fun p => p.1 - p.2) pts) (0, 0),
   pts.getD (argmaxIdx ptSum pts) (0, 0),
   pts.getD (argmaxIdx (fun p => p.1 - p.2) pts) (0, 0)]

/-! ## The allowed-entity vocabularies and the pydantic field validators
(src/bot/src/report_builder.py lines 24-65)

`allowed_entities = load_entities()` is process-wide state; each
`@field_validator` body begins with
`allowed_entities[...].append("Не определено")`, a mutation of that shared
state, before the membership test.  The mutation is made explicit by
threading the `Entities` value. -/

structure Entities where
  type : List String
  culture : List String
  division : List String
  subdivision : List String
  deriving DecidableEq, Repr

/-- `OperationEntry.validate_operation`. -/
def validate_operation (st : Entities) (v : String) :
    Entities × Except Unit String :=
  let st' := { st with type := st.type ++ [sentinelValue] }
  (st', if v ∈ st'.type then .ok v else .error ())

/-- `OperationEntry.validate_culture` (`None` skips the membership test
but not the append). -/
def validate_culture (st : Entities) (v : Option String) :
    Entities × Except Unit (Option String) :=
  let st' := { st with culture := st.culture ++ [sentinelValue] }
  (st', match v with
        | none => .ok none
        | some s => if s = "" then .ok v
                    else if s ∈ st'.culture then .ok v else .error ())

/-- `OperationEntry.validate_division`. -/
def validate_division (st : Entities) (v : Option String) :
    Entities × Except Unit (Option String) :=
  let st' := { st with division := st.division ++ [sentinelValue] }
  (st', match v with
        | none => .ok none
        | some s => if s = "" then .ok v
                    else if s ∈ st'.division then .ok v else .error ())

/-! ## Finalization of a record batch
(src/bot/src/telegram_bot.py lines 188-200 and 313-325, identical logic)

`needs_val` is true when *any* entry's `Операция` equals `"Уборка"`
(reading `entry["Операция"]` raises `KeyError` when absent).  Then for
every entry: `Данные` is popped; if `needs_val` is false both yield keys
are popped (with default, so silently when absent); otherwise both yield
values are divided by 100 (`KeyError` when the key is absent, `TypeError`
when the value is not a number — Python booleans divide as ints). -/

def yieldFromKey : String := "Вал с начала, ц"

def yieldDayKey : String := "Вал за день, ц"

def pyDiv100 : PyVal → Except PyErr PyVal
  | .num q => .ok (.num (q / 100))
  | .bool b => .ok (.num ((if b then (1 : ℚ) else 0) / 100))
  | _ => .error .typeError

def getItem (k : String) (r : Record) : Except PyErr PyVal :=
  match lookupKey k r with
  | some v => .ok v
  | none => .error .keyError

def computeNeedsVal (entries : List Record) : Except PyErr Bool :=
  (entries.mapM (getItem operationKey)).map
    (fun ops => ops.any (fun v => v = .str harvestOperation))

def finalizeEntry (needsVal : Bool) (e : Record) : Except PyErr Record :=
  let e1 := popKey dataKey e
  if needsVal then do
    let vFrom ← getItem yieldFromKey e1
    let vFrom' ← pyDiv100 vFrom
    let e2 := setKey e1 yieldFromKey vFrom'
    let vDay ← getItem yieldDayKey e2
    let vDay' ← pyDiv100 vDay
    .ok (setKey e2 yieldDayKey vDay')
  else
    .ok (popKey yieldDayKey (popKey yieldFromKey e1))

def finalizeEntries (entries : List Record) : Except PyErr (List Record) := do
  let needsVal ← computeNeedsVal entries
  entries.mapM (finalizeEntry needsVal)

/-! ## The interactive correction session
(src/bot/src/telegram_bot.py lines 149-202 and 286-298)

The queue is built by scanning every record and every field in insertion
order and collecting each `(record_index, field_name)` pair whose value is
the sentinel.  Each non-empty answer is stripped and written into the
record/field at the cursor; the cursor advances; when it reaches the queue
end the `awaiting_correction` flag is popped and the batch is finalized.
Finalization is modelled atomically: on a finalization exception the
session keeps the pre-finalization records (the exception escapes the
handler either way, and no claim examines that partial state). -/

def buildQueue (entries : List Record) : List (Nat × String) :=
  (entries.enum.map (fun p =>
    (p.2.filter (fun kv => kv.2 = PyVal.str sentinelValue)).map
      (fun kv => (p.1, kv.1)))).flatten

/-- `entries[i][k] = v` (`i` is in range for every queue pair by
construction; `List.set` out of range is the identity). -/
def writeField (entries : List Record) (i : Nat) (k : String) (v : PyVal) :
    List Record :=
  entries.set i (setKey (entries.getD i []) k v)

structure Session where
  entries : List Record
  queue : List (Nat × String)
  cursor : Nat
  awaiting : Bool
  corrected : Option (List Record)
  deriving Repr

def Session.start (entries : List Record) : Session :=
  ⟨entries, buildQueue entries, 0, true, none⟩

/-- One call of the correction branch of `prompt` with message text
`input`: empty text is refused without a state change; a cursor already at
the queue end just pops the awaiting flag; otherwise the stripped input is
written at the cursor's queue pair and the cursor advances, finalizing
when it reaches the end. -/
def answerStep (s : Session) (input : String) : Session :=
  if !s.awaiting then s
  else if input = "" then s
  else
    let value := String.mk (stripEnds input.data)
    if s.queue.length ≤ s.cursor then { s with awaiting := false }
    else
      let pair := s.queue.getD s.cursor (0, "")
      let entries' := writeField s.entries pair.1 pair.2 (.str value)
      let cursor' := s.cursor + 1
      if cursor' < s.queue.length then
        { s with entries := entries', cursor := cursor' }
      else
        match finalizeEntries entries' with
        | .ok fin =>
          { entries := fin, queue := s.queue, cursor := cursor',
            awaiting := false, corrected := some fin }
        | .error _ =>
          { entries := entries', queue := s.queue, cursor := cursor',
            awaiting := false, corrected := none }

def runAnswers (s : Session) (inputs : List String) : Session :=
  inputs.foldl answerStep s

/-- The bare write sequence of the correction loop: answer `i` is stripped
and written at queue pair `i`. -/
def applyAnswers (entries : List Record) :
    List ((Nat × String) × String) → List Record
  | [] => entries
  | (pair, input) :: rest =>
    applyAnswers
      (writeField entries pair.1 pair.2 (.str (String.mk (stripEnds input.data))))
      rest

/-! ## Worker and gateway (src/bot/src/worker.py lines 47-66,
src/bot/src/utils.py lines 285-311)

`handle_message` runs inside `async with message.process()`; the inner
`try/except Exception` swallows every pipeline exception, so the context
manager always exits normally and the delivery is always acknowledged.  A
reply is published only when the pipeline returned and `reply_to` was
set.  The gateway resolves its future with the first reply whose
`correlation_id` matches. -/

structure JobMsg where
  body : String
  replyTo : Option String
  corrId : String

structure ReplyMsg where
  body : String
  corrId : String
  routingKey : String
  deriving DecidableEq, Repr

structure WorkerOutcome where
  acked : Bool
  reply : Option ReplyMsg
  deriving Repr

/-- `handle_message`, with the pipeline call abstracted as
`build : String → Except PyErr (List Record)` and `json.dumps` as
`dumps`. -/
def handleMessage (build : String → Except PyErr (List Record))
    (dumps : List Record → String) (m : JobMsg) : WorkerOutcome :=
  match build m.body with
  | .error _ => ⟨true, none⟩
  | .ok result =>
    match m.replyTo with
    | some rk => ⟨true, some ⟨dumps result, m.corrId, rk⟩⟩
    | none => ⟨true, none⟩

/-- The gateway's `on_response`: the future is set by the first incoming
message whose correlation id matches; `none` means the future is never
resolved. -/
def resolveFuture (corrId : String) : List ReplyMsg → Option String
  | [] => none
  | r :: rest => if r.corrId = corrId then some r.body else resolveFuture corrId rest

def repliesOf (o : WorkerOutcome) : List ReplyMsg := o.reply.toList

/-! ## `is_allowed` / `is_admin` (src/bot/src/utils.py lines 314-350)

`user_id in config["allowed_user_ids"].split(",")` tests the *integer*
id for membership in a list of *strings*; Python `==` between `int` and
`str` is always `False`.  `is_admin` compares `str(user_id)` correctly. -/

def pyEq : PyVal → PyVal → Bool
  | .str a, .str b => a = b
  | .num a, .num b => a = b
  | .bool a, .bool b => a = b
  | .null, .null => true
  | _, _ => false

/-- Python `s.split(",")` on a single-character separator. -/
def splitComma : List Char → List (List Char)
  | [] => [[]]
  | c :: rest =>
    if c = ',' then [] :: splitComma rest
    else
      match splitComma rest with
      | [] => [[c]]
      | g :: gs => (c :: g) :: gs

/-- Python `str(n)` for a natural number (fuel-structural base-10
rendering; the fuel `n + 1` always suffices). -/
def natStrAux : Nat → Nat → List Char
  | 0, _ => []
  | fuel + 1, n =>
    if n < 10 then [Char.ofNat (48 + n)]
    else natStrAux fuel (n / 10) ++ [Char.ofNat (48 + n % 10)]

def natStr (n : Nat) : List Char := natStrAux (n + 1) n

/-- Python `str(i)` for an integer. -/
def intStr (i : Int) : List Char :=
  if i < 0 then '-' :: natStr i.natAbs else natStr i.natAbs

structure BotConfig where
  allowedUserIds : String
  adminUserIds : String

/-- `is_admin` (src/bot/src/utils.py lines 333-350): compares
`str(user_id)` against the split admin list — a string/string
comparison. -/
def is_admin (config : BotConfig) (userId : Int) : Bool :=
  if config.adminUserIds = "-" then false
  else (splitComma config.adminUserIds.data).contains (intStr userId)

/-- `is_allowed` (src/bot/src/utils.py lines 314-330): the final check is
`user_id in config["allowed_user_ids"].split(",")` — the *integer* id
tested against *strings* with Python `==` (`pyEq`), which never succeeds
across those types. -/
def is_allowed (config : BotConfig) (userId : Int) : Bool :=
  if config.allowedUserIds = "*" then true
  else if is_admin config userId then true
  else if (splitComma config.allowedUserIds.data).any
      (fun s => pyEq (.num userId) (.str (String.mk s))) then true
  else false

/-! ## Normal forms of `clean_string` output

These decidable predicates characterize the strings on which each
`clean_string` substitution is the identity; they are established for the
output of a full `clean_string` pass over backslash-free, backtick-free
input and drive the idempotence proof. -/

/-- Every whitespace character is a plain space. -/
def spacesBlank (l : List Char) : Bool := l.all (fun c => !pyIsSpace c || c = ' ')

/-- No two adjacent spaces. -/
def noAdjSpace : List Char → Bool
  | a :: b :: r => !(a = ' ' && b = ' ') && noAdjSpace (b :: r)
  | _ => true

/-- No closing bracket followed, through whitespace only, by an opening
bracket (the pattern the comma-insertion substitution rewrites). -/
def noCWO : List Char → Bool
  | [] => true
  | c :: r => !(isClose c && hasWsOpen r) && noCWO r

/-- Neither end is whitespace. -/
def strippedB (l : List Char) : Bool :=
  (match l.head? with
   | none => true
   | some c => !pyIsSpace c) &&
  (match l.getLast? with
   | none => true
   | some c => !pyIsSpace c)

/-- `buildQueue` with the enumeration starting at `n`; used to reason
about `buildQueue` by induction (`List.enum = List.enumFrom 0`). -/
def buildQueueFrom (n : Nat) (entries : List Record) : List (Nat × String) :=
  ((List.enumFrom n entries).map (fun p =>
    (p.2.filter (fun kv => kv.2 = PyVal.str sentinelValue)).map
      (fun kv => (p.1, kv.1)))).flatten

/-! ## Concrete instances used by witnesses and counterexamples -/

/-- An environment whose initial inference call returns the refusal
phrase; the remaining collaborators are arbitrary. -/
def refusalEnv : Env where
  stage1 := fun _ => "Отчёт не может быть обработан."
  stage2 := fun _ => ""
  fixFields := fun _ => ""
  fixJson := fun _ => ""
  parse := fun _ => .error ()
  literalEval := fun _ => .error ()
  modelValidate := fun _ => .error ()
  dumps := fun _ => ""

/-- A record without any of the four internal alias keys (as produced by
`model_dump(exclude_none=True)` when the numeric fields were absent). -/
def noAliasRecord : Record := [(dateKey, .str "01.05.2024")]

/-- An environment whose two pipeline stages succeed, producing a record
that lacks the alias keys. -/
def missingAliasEnv : Env where
  stage1 := fun _ => "[]"
  stage2 := fun _ => ""
  fixFields := fun _ => ""
  fixJson := fun _ => ""
  parse := fun _ => .ok (.arr [])
  literalEval := fun _ => .error ()
  modelValidate := fun _ => .ok [noAliasRecord]
  dumps := fun _ => "[]"

/-- A harvest record and a sowing record, both carrying yield values. -/
def harvestRec : Record :=
  [(dateKey, .str "01.05.2024"), (operationKey, .str "Уборка"),
   (dataKey, .str "скошено"), (yieldDayKey, .num 500), (yieldFromKey, .num 1000)]

def sowingRec : Record :=
  [(dateKey, .str "02.05.2024"), (operationKey, .str "Сев"),
   (dataKey, .str "посеяно"), (yieldDayKey, .num 200), (yieldFromKey, .num 300)]

def mixedBatch : List Record := [harvestRec, sowingRec]

/-- The expected finalization of `mixedBatch`. -/
def harvestRecFinal : Record :=
  [(dateKey, .str "01.05.2024"), (operationKey, .str "Уборка"),
   (yieldDayKey, .num (500 / 100)), (yieldFromKey, .num (1000 / 100))]

def sowingRecFinal : Record :=
  [(dateKey, .str "02.05.2024"), (operationKey, .str "Сев"),
   (yieldDayKey, .num (200 / 100)), (yieldFromKey, .num (300 / 100))]

/-- Four axis-aligned square corners in pixel coordinates. -/
def squarePts : List Point := [(0, 0), (10, 0), (10, 10), (0, 10)]

/-- A schema-valid JSON report whose free-text fragment contains the
two-character sequence backslash-`x` (written in JSON as the escaped
backslash `\\` followed by `x`). -/
def escCexStr : String :=
  "[\x7b\"Дата\": \"01.05.2024\", \"Операция\": \"Сев\", \"Данные\": \"a\\\\xb\"\x7d]"

/-- A backslash-free, backtick-free JSON string with a missing comma and
surrounding whitespace, used to exercise the normalize step. -/
def cleanWitnessStr : String :=
  "  [\x7b\"Дата\": \"01.05.2024\"\x7d \x7b\"Дата\": \"02.05.2024\"\x7d]  "

/-- A batch with two unresolved sentinel fields in its first record. -/
def sessionEntries : List Record :=
  [[(dateKey, .str "02.05.2024"), (operationKey, .str sentinelValue),
    (dataKey, .str "сев пшеницы"), ("Культура", .str sentinelValue)],
   [(dateKey, .str "03.05.2024"), (operationKey, .str "Сев"),
    (dataKey, .str "сев ячменя")]]

def sessionInputs : List String := ["Сев", " Пшеница "]

/-- The spec's stage-1 scenario record with an ISO date. -/
def isoItems : List Json :=
  [.obj [(dateKey, .str "2024-05-01"), (operationKey, .str "Сев"),
         (dataKey, .str "посеяно 100 га")]]

def jobFailMsg : JobMsg := ⟨"сводка за день", some "amq.reply-q1", "corr-42"⟩

def failingBuild : String → Except PyErr (List Record) := fun _ => .error .valueError

def listedConfig : BotConfig := ⟨"123,456", "-"⟩

/-! # Helper lemmas on record operations -/

theorem bind_ok_eq {ε α β : Type} (a : α) (f : α → Except ε β) :
    (Except.ok a : Except ε α).bind f = f a := rfl

theorem bind_error_eq {ε α β : Type} (e : ε) (f : α → Except ε β) :
    (Except.error e : Except ε α).bind f = .error e := rfl

theorem lookupKey_append (k : String) (a b : Record) :
    lookupKey k (a ++ b) = (lookupKey k a).elim (lookupKey k b) some := by
  induction a with
  | nil => simp [lookupKey]
  | cons p rest ih =>
    simp only [List.cons_append, lookupKey]
    split
    · simp
    · exact ih

theorem lookupKey_map_set_of_has (k : String) (v : PyVal) :
    ∀ r : Record, hasKey k r = true →
      lookupKey k (r.map (fun p => if p.1 = k then (k, v) else p)) = some v := by
  intro r
  induction r with
  | nil => intro h; simp [hasKey, lookupKey] at h
  | cons p rest ih =>
    obtain ⟨a, b⟩ := p
    intro h
    rw [List.map_cons]
    by_cases hp : a = k
    · rw [if_pos hp]
      simp [lookupKey]
    · rw [if_neg hp]
      rw [lookupKey, if_neg hp]
      apply ih
      rw [hasKey, lookupKey, if_neg hp] at h
      exact h

theorem lookup_setKey_self (r : Record) (k : String) (v : PyVal) :
    lookupKey k (setKey r k v) = some v := by
  unfold setKey
  split
  · exact lookupKey_map_set_of_has k v r (by assumption)
  · rename_i h
    have hnone : lookupKey k r = none := by
      cases hl : lookupKey k r with
      | none => rfl
      | some w => exact absurd (by simp [hasKey, hl]) h
    rw [lookupKey_append, hnone]
    simp [lookupKey]

theorem lookupKey_map_set_ne (k k' : String) (v : PyVal) (h : k ≠ k') :
    ∀ r : Record,
      lookupKey k (r.map (fun p => if p.1 = k' then (k', v) else p)) =
        lookupKey k r := by
  intro r
  induction r with
  | nil => rfl
  | cons p rest ih =>
    obtain ⟨a, b⟩ := p
    rw [List.map_cons]
    by_cases hp : a = k'
    · rw [if_pos hp]
      have hak : ¬a = k := fun hk => h (hk ▸ hp ▸ rfl)
      have hk'k : ¬k' = k := fun hk => h hk.symm
      rw [lookupKey, if_neg hk'k, lookupKey, if_neg hak]
      exact ih
    · rw [if_neg hp]
      rw [lookupKey, lookupKey]
      by_cases hak : a = k
      · rw [if_pos hak, if_pos hak]
      · rw [if_neg hak, if_neg hak]
        exact ih

theorem lookup_setKey_ne (r : Record) (k k' : String) (v : PyVal)
    (h : k ≠ k') : lookupKey k (setKey r k' v) = lookupKey k r := by
  unfold setKey
  split
  · exact lookupKey_map_set_ne k k' v h r
  · rw [lookupKey_append]
    cases hl : lookupKey k r with
    | some w => simp
    | none => simp [lookupKey, if_neg (fun hk : k' = k => h hk.symm)]

theorem lookup_popKey_self (r : Record) (k : String) :
    lookupKey k (popKey k r) = none := by
  induction r with
  | nil => rfl
  | cons p rest ih =>
    obtain ⟨a, b⟩ := p
    unfold popKey at ih ⊢
    by_cases hp : a = k
    · rw [List.filter_cons_of_neg]
      · exact ih
      · simp [hp]
    · rw [List.filter_cons_of_pos]
      · rw [lookupKey, if_neg hp]
        exact ih
      · simp [hp]

theorem lookup_popKey_ne (r : Record) (k k' : String) (h : k ≠ k') :
    lookupKey k (popKey k' r) = lookupKey k r := by
  induction r with
  | nil => rfl
  | cons p rest ih =>
    obtain ⟨a, b⟩ := p
    unfold popKey at ih ⊢
    by_cases hp : a = k'
    · have hak : ¬a = k := fun hk => h (hk ▸ hp ▸ rfl)
      rw [List.filter_cons_of_neg]
      · rw [lookupKey, if_neg hak]
        exact ih
      · simp [hp]
    · rw [List.filter_cons_of_pos]
      · rw [lookupKey, lookupKey]
        by_cases hak : a = k
        · rw [if_pos hak, if_pos hak]
        · rw [if_neg hak, if_neg hak]
          exact ih
      · simp [hp]

theorem hasKey_popKey_self (r : Record) (k : String) :
    hasKey k (popKey k r) = false := by
  simp [hasKey, lookup_popKey_self]

theorem hasKey_popKey_ne (r : Record) (k k' : String) (h : k ≠ k') :
    hasKey k (popKey k' r) = hasKey k r := by
  simp [hasKey, lookup_popKey_ne r k k' h]

/-- A `mapM` over `Except` whose body succeeds on every element. -/
theorem mapM_ok_of_mem {α β ε : Type} (f : α → Except ε β) (g : α → β)
    (l : List α) (h : ∀ a ∈ l, f a = .ok (g a)) : l.mapM f = .ok (l.map g) := by
  induction l with
  | nil => rfl
  | cons a rest ih =>
    rw [List.mapM_cons, h a (List.mem_cons_self a rest)]
    simp only [List.map_cons]
    rw [ih (fun x hx => h x (List.mem_cons_of_mem a hx))]
    rfl

/-- A `mapM` over `Except` whose body succeeds on every element, with the
pointwise input/output relation recovered by index. -/
theorem mapM_ok_index {α β ε : Type} (f : α → Except ε β) (da : α) (db : β) :
    ∀ l : List α, (∀ a ∈ l, ∃ b, f a = .ok b) →
      ∃ l', l.mapM f = .ok l' ∧ l'.length = l.length ∧
        ∀ i, i < l.length → f (l.getD i da) = .ok (l'.getD i db) := by
  intro l
  induction l with
  | nil => intro _; exact ⟨[], rfl, rfl, fun i hi => absurd hi (by simp)⟩
  | cons a rest ih =>
    intro h
    obtain ⟨b, hb⟩ := h a (List.mem_cons_self a rest)
    obtain ⟨l'', hm, hlen, hidx⟩ := ih (fun x hx => h x (List.mem_cons_of_mem a hx))
    refine ⟨b :: l'', ?_, by simp [hlen], ?_⟩
    · rw [List.mapM_cons, hb, hm]
      rfl
    · intro i hi
      cases i with
      | zero => simpa using hb
      | succ j =>
        have hj : j < rest.length := by
          simpa [List.length_cons, Nat.succ_lt_succ_iff] using hi
        simpa using hidx j hj

/-- An error anywhere in the list makes the `mapM` fail. -/
theorem mapM_error_of_mem {α β ε : Type} (f : α → Except ε β) :
    ∀ l : List α, (∃ a ∈ l, ∃ e, f a = .error e) →
      ∃ e, l.mapM f = .error e := by
  intro l
  induction l with
  | nil => rintro ⟨a, ha, _⟩; exact absurd ha (by simp)
  | cons x rest ih =>
    rintro ⟨a, ha, e, he⟩
    cases hf : f x with
    | error e' => exact ⟨e', by rw [List.mapM_cons, hf]; rfl⟩
    | ok b =>
      rcases List.mem_cons.mp ha with hax | har
      · rw [← hax] at hf
        rw [hf] at he
        exact absurd he (by simp)
      · obtain ⟨e'', he''⟩ := ih ⟨a, har, e, he⟩
        refine ⟨e'', ?_⟩
        rw [List.mapM_cons, hf, he'']
        rfl

/-! # C10 — `is_allowed` int/str membership -/

/-- C10: for every configuration whose `allowed_user_ids` is not the
wildcard and every non-admin user, `is_allowed` returns `false` even when
the user's numeric id appears (as a string) in the comma-separated
allow-list, because the integer id is compared against strings. -/
theorem c10_is_allowed_false (cfg : BotConfig) (uid : Int)
    (hw : cfg.allowedUserIds ≠ "*")
    (ha : is_admin cfg uid = false)
    (_hmem : (splitComma cfg.allowedUserIds.data).contains (intStr uid) = true) :
    is_allowed cfg uid = false := by
  unfold is_allowed
  rw [if_neg hw, ha]
  have hany : (splitComma cfg.allowedUserIds.data).any
      (fun s => pyEq (.num uid) (.str (String.mk s))) = false := by
    simp [List.any_eq_false, pyEq]
  simp [hany]

/-- C10 witness: user 123 is listed in `"123,456"`, is not admin, and is
still rejected. -/
theorem c10_is_allowed_false_witness :
    is_allowed listedConfig 123 = false ∧
      (splitComma listedConfig.allowedUserIds.data).contains (intStr 123) = true :=
  ⟨c10_is_allowed_false listedConfig 123 (by decide) (by decide) (by decide),
   by decide⟩

/-! # C3 — the vocabulary containers are mutated by validation -/

/-- C3: contrary to the read-only invariant, every `validate_operation`
call appends the unresolved sentinel to the stored operation-type
container, so the allowed-value state after a validation call differs
from the state before it. -/
theorem c3_validate_operation_mutates (st : Entities) (v : String) :
    (validate_operation st v).1.type = st.type ++ [sentinelValue] ∧
      (validate_operation st v).1.type ≠ st.type := by
  refine ⟨rfl, ?_⟩
  intro h
  have hlen := congrArg List.length h
  simp [validate_operation] at hlen

/-! # C8 — worker swallows pipeline exceptions -/

/-- C8: when the pipeline call raises, `handle_message` still acknowledges
the delivery (the inner `except Exception` swallows the error and the
`message.process()` context exits normally) and publishes no reply, so the
gateway future for the job's correlation id is never resolved. -/
theorem c8_worker_ack_no_reply (build : String → Except PyErr (List Record))
    (dumps : List Record → String) (m : JobMsg) (e : PyErr)
    (h : build m.body = .error e) :
    handleMessage build dumps m = ⟨true, none⟩ ∧
      resolveFuture m.corrId (repliesOf (handleMessage build dumps m)) = none := by
  have hm : handleMessage build dumps m = ⟨true, none⟩ := by
    unfold handleMessage
    rw [h]
  exact ⟨hm, by rw [hm]; rfl⟩

/-- C8 witness: a concrete job whose pipeline raises a `ValueError`. -/
theorem c8_worker_ack_no_reply_witness :
    failingBuild jobFailMsg.body = .error .valueError ∧
      handleMessage failingBuild (fun _ => "[]") jobFailMsg = ⟨true, none⟩ ∧
      resolveFuture jobFailMsg.corrId
        (repliesOf (handleMessage failingBuild (fun _ => "[]") jobFailMsg)) = none := by
  refine ⟨rfl, ?_⟩
  exact c8_worker_ack_no_reply failingBuild (fun _ => "[]") jobFailMsg .valueError rfl

/-! # C7 — rename failure downgrades to the error sentinel -/

theorem renameStep_error (aliasKey display : String) (r : Record)
    (h : lookupKey aliasKey r = none) :
    renameStep aliasKey display r = .error .keyError := by
  unfold renameStep
  rw [h]

theorem renameStep_ok (aliasKey display : String) (r : Record) (v : PyVal)
    (h : lookupKey aliasKey r = some v) :
    renameStep aliasKey display r = .ok (setKey (popKey aliasKey r) display v) := by
  unfold renameStep
  rw [h]

/-- `renameStep` does not disturb lookups at keys other than the alias
and display names. -/
theorem lookup_renameStep (aliasKey display k : String) (r r' : Record)
    (hk1 : k ≠ aliasKey) (hk2 : k ≠ display)
    (h : renameStep aliasKey display r = .ok r') :
    lookupKey k r' = lookupKey k r := by
  unfold renameStep at h
  cases hl : lookupKey aliasKey r with
  | none => rw [hl] at h; exact absurd h (by simp)
  | some v =>
    rw [hl] at h
    have : r' = setKey (popKey aliasKey r) display v := by
      injection h with h'
      exact h'.symm
    rw [this, lookup_setKey_ne _ _ _ _ hk2, lookup_popKey_ne _ _ _ hk1]

theorem renameItem_error_of_missing (r : Record)
    (h : ∃ pair ∈ aliasPairs, lookupKey pair.1 r = none) :
    ∃ e, renameItem r = .error e := by
  obtain ⟨pair, hmem, hnone⟩ := h
  have hc : lookupKey "За_день_га" r = none ∨
      lookupKey "С_начала_операции_га" r = none ∨
      lookupKey "Вал_за_день_ц" r = none ∨
      lookupKey "Вал_с_начала_ц" r = none := by
    simp only [aliasPairs, List.mem_cons, List.not_mem_nil, or_false] at hmem
    rcases hmem with h | h | h | h <;> rw [h] at hnone <;> simp at hnone <;> tauto
  unfold renameItem
  cases e1 : renameStep "За_день_га" "За день, га" r with
  | error err => exact ⟨err, by rw [bind_error_eq, bind_error_eq, bind_error_eq]⟩
  | ok r1 =>
    have h1some : lookupKey "За_день_га" r ≠ none := by
      intro hn
      rw [renameStep_error _ _ _ hn] at e1
      exact Except.noConfusion e1
    rw [bind_ok_eq]
    have l2 : lookupKey "С_начала_операции_га" r1 =
        lookupKey "С_начала_операции_га" r :=
      lookup_renameStep _ _ _ _ _ (by decide) (by decide) e1
    cases e2 : renameStep "С_начала_операции_га" "С начала операции, га" r1 with
    | error err => exact ⟨err, by rw [bind_error_eq, bind_error_eq]⟩
    | ok r2 =>
      have h2some : lookupKey "С_начала_операции_га" r ≠ none := by
        intro hn
        rw [renameStep_error _ _ _ (l2.trans hn)] at e2
        exact Except.noConfusion e2
      rw [bind_ok_eq]
      have l3 : lookupKey "Вал_за_день_ц" r2 = lookupKey "Вал_за_день_ц" r := by
        rw [lookup_renameStep _ _ _ _ _ (by decide) (by decide) e2,
          lookup_renameStep _ _ _ _ _ (by decide) (by decide) e1]
      cases e3 : renameStep "Вал_за_день_ц" "Вал за день, ц" r2 with
      | error err => exact ⟨err, by rw [bind_error_eq]⟩
      | ok r3 =>
        have h3some : lookupKey "Вал_за_день_ц" r ≠ none := by
          intro hn
          rw [renameStep_error _ _ _ (l3.trans hn)] at e3
          exact Except.noConfusion e3
        rw [bind_ok_eq]
        have l4 : lookupKey "Вал_с_начала_ц" r3 = lookupKey "Вал_с_начала_ц" r := by
          rw [lookup_renameStep _ _ _ _ _ (by decide) (by decide) e3,
            lookup_renameStep _ _ _ _ _ (by decide) (by decide) e2,
            lookup_renameStep _ _ _ _ _ (by decide) (by decide) e1]
        have h4none : lookupKey "Вал_с_начала_ц" r = none := by
          rcases hc with h | h | h | h
          · exact absurd h h1some
          · exact absurd h h2some
          · exact absurd h h3some
          · exact h
        exact ⟨.keyError, by rw [renameStep_error _ _ _ (l4.trans h4none)]⟩

theorem renameAll_error_of_missing (recs : List Record)
    (h : ∃ r ∈ recs, ∃ pair ∈ aliasPairs, lookupKey pair.1 r = none) :
    ∃ e, renameAll recs = .error e := by
  obtain ⟨r, hr, hpair⟩ := h
  obtain ⟨e, he⟩ := renameItem_error_of_missing r hpair
  exact mapM_error_of_mem renameItem recs ⟨r, hr, e, he⟩

/-- C7: whenever both stages succeed but some output record lacks one of
the internal alias keys, the rename pass raises `KeyError` inside the
`try/except` at the end of `build`, and `build` returns the fixed
human-readable `ERROR_TEXT` sentinel instead of propagating the
exception. -/
theorem c7_missing_alias_yields_sentinel (env : Env) (rd : String)
    (recs1 recs2 : List Record)
    (h1 : (validateReports env (env.stage1 rd)).result = .ok recs1)
    (h2 : (validateReports env (env.dumps (recs1.map env.stage2))).result = .ok recs2)
    (hmiss : ∃ r ∈ recs2, ∃ pair ∈ aliasPairs, lookupKey pair.1 r = none) :
    (buildRun env rd).result = .ok (.inl ERROR_TEXT) := by
  obtain ⟨e, he⟩ := renameAll_error_of_missing recs2 hmiss
  simp only [buildRun, h1, h2, buildFinalize, he]

/-- C7 witness: an environment whose stages produce a record without the
alias keys; `build` returns the sentinel. -/
theorem c7_missing_alias_yields_sentinel_witness :
    (buildRun missingAliasEnv "отчёт").result = .ok (.inl ERROR_TEXT) ∧
      lookupKey "За_день_га" noAliasRecord = none :=
  ⟨c7_missing_alias_yields_sentinel missingAliasEnv "отчёт" [noAliasRecord]
      [noAliasRecord] rfl rfl
      ⟨noAliasRecord, by simp,
       ("За_день_га", "За день, га"), by simp [aliasPairs], rfl⟩,
   rfl⟩

/-! # C1 — the refusal phrase raises instead of returning the sentinel -/

/-- C1 counterexample to the claim as stated: with an inference backend
that answers the refusal phrase, `build` does *not* return the error
sentinel string — the `ValueError` raised in `_validate` is re-raised by
its `except Exception` clause and propagates out of `build` (no repair
call is made either). -/
theorem c1_refusal_counterexample :
    buildRun refusalEnv "сводка за 1 мая" = ⟨.error .valueError, 0, 0⟩ ∧
      (buildRun refusalEnv "сводка за 1 мая").result ≠ .ok (.inl ERROR_TEXT) := by
  have hb : buildRun refusalEnv "сводка за 1 мая" = ⟨.error .valueError, 0, 0⟩ := by
    rfl
  refine ⟨hb, ?_⟩
  rw [hb]
  simp

/-- C1 amended: for every environment and raw input whose normalized
stage-1 inference output contains the refusal phrase, `build` raises the
`ValueError` (it does not return the sentinel) and issues neither the
field-fix nor the JSON-fix repair inference call. -/
theorem c1_refusal_raises_without_repair (env : Env) (rd : String)
    (h : refusalIn (cleanString (env.stage1 rd)) = true) :
    buildRun env rd = ⟨.error .valueError, 0, 0⟩ ∧
      (buildRun env rd).result ≠ .ok (.inl ERROR_TEXT) := by
  have hb : buildRun env rd = ⟨.error .valueError, 0, 0⟩ := by
    unfold buildRun validateReports
    simp only [h, if_true]
  refine ⟨hb, ?_⟩
  rw [hb]
  simp

/-- C1 witness: the amended theorem applied to the concrete refusing
environment. -/
theorem c1_refusal_raises_without_repair_witness :
    refusalIn (cleanString (refusalEnv.stage1 "отчёт за 2 мая")) = true ∧
      (buildRun refusalEnv "отчёт за 2 мая" = ⟨.error .valueError, 0, 0⟩ ∧
        (buildRun refusalEnv "отчёт за 2 мая").result ≠ .ok (.inl ERROR_TEXT)) :=
  ⟨rfl, c1_refusal_raises_without_repair refusalEnv "отчёт за 2 мая" rfl⟩

/-! # C2 — yield fields under finalization -/

/-- C2 counterexample to the claim as stated: in a finalized mixed batch
(one harvest record, one sowing record), the sowing record — whose
operation is not `"Уборка"` — still carries both yield fields (values
divided by 100). -/
theorem c2_mixed_batch_counterexample :
    finalizeEntries mixedBatch = .ok [harvestRecFinal, sowingRecFinal] ∧
      lookupKey operationKey sowingRecFinal = some (.str "Сев") ∧
      hasKey yieldFromKey sowingRecFinal = true ∧
      hasKey yieldDayKey sowingRecFinal = true := by
  exact ⟨rfl, rfl, rfl, rfl⟩

/-- C2 amended: yield fields are dropped from every record only when *no*
record in the batch has the harvest operation; under that condition no
finalized record contains the per-day or cumulative yield field (nor the
free-text fragment). -/
theorem c2_no_harvest_drops_yields (entries : List Record)
    (hop : ∀ e ∈ entries, hasKey operationKey e = true)
    (hnh : ∀ e ∈ entries, lookupKey operationKey e ≠ some (.str harvestOperation)) :
    ∃ out, finalizeEntries entries = .ok out ∧
      ∀ r ∈ out, hasKey yieldFromKey r = false ∧ hasKey yieldDayKey r = false ∧
        hasKey dataKey r = false := by
  have hget : ∀ e ∈ entries, getItem operationKey e =
      .ok ((lookupKey operationKey e).getD PyVal.null) := by
    intro e he
    cases hl : lookupKey operationKey e with
    | none =>
      have hk := hop e he
      rw [hasKey, hl] at hk
      exact absurd hk (by simp)
    | some v => simp [getItem, hl]
  have hneeds : computeNeedsVal entries = .ok false := by
    unfold computeNeedsVal
    rw [mapM_ok_of_mem _ _ entries hget]
    have hany : (entries.map (fun e => (lookupKey operationKey e).getD PyVal.null)).any
        (fun v => v = .str harvestOperation) = false := by
      rw [List.any_eq_false]
      intro v hv
      obtain ⟨e, he, hev⟩ := List.mem_map.mp hv
      simp only [decide_eq_true_eq]
      intro hveq
      apply hnh e he
      cases hl : lookupKey operationKey e with
      | none =>
        have hk := hop e he
        rw [hasKey, hl] at hk
        exact absurd hk (by simp)
      | some w =>
        rw [hl] at hev
        simp only [Option.getD_some] at hev
        rw [hev, hveq]
    exact congrArg Except.ok hany
  have hfin : ∀ e ∈ entries, finalizeEntry false e =
      .ok (popKey yieldDayKey (popKey yieldFromKey (popKey dataKey e))) := by
    intro e _
    rfl
  refine ⟨entries.map (fun e => popKey yieldDayKey (popKey yieldFromKey (popKey dataKey e))),
    ?_, ?_⟩
  · unfold finalizeEntries
    rw [hneeds]
    exact mapM_ok_of_mem _ _ entries hfin
  · intro r hr
    obtain ⟨e, _, hre⟩ := List.mem_map.mp hr
    subst hre
    refine ⟨?_, ?_, ?_⟩
    · rw [hasKey_popKey_ne _ _ _ (by decide)]
      exact hasKey_popKey_self _ _
    · exact hasKey_popKey_self _ _
    · rw [hasKey_popKey_ne _ _ _ (by decide), hasKey_popKey_ne _ _ _ (by decide)]
      exact hasKey_popKey_self _ _

/-- C2 witness: a batch of one sowing record carrying yield values has
them (and the fragment) dropped by finalization. -/
theorem c2_no_harvest_drops_yields_witness :
    (∀ e ∈ [sowingRec], hasKey operationKey e = true) ∧
      (∃ out, finalizeEntries [sowingRec] = .ok out ∧
        ∀ r ∈ out, hasKey yieldFromKey r = false ∧ hasKey yieldDayKey r = false ∧
          hasKey dataKey r = false) :=
  ⟨by decide,
   c2_no_harvest_drops_yields [sowingRec] (by decide) (by decide)⟩

/-! # C9 — the date reformat pass -/

theorem dateFix_obj (kvs : List (String × Json)) (s : String)
    (hlook : Json.lookup dateKey kvs = some (.str s)) :
    dateFix (.obj kvs) = .ok (match parseIso s with
      | some (y, m, d) => .obj (Json.set kvs dateKey (.str (formatDMY y m d)))
      | none => .obj kvs) := by
  have hred : dateFix (.obj kvs) = (match parseIso s with
      | some (y, m, d) =>
        Except.ok (Json.obj (Json.set kvs dateKey (.str (formatDMY y m d))))
      | none => Except.ok (.obj kvs)) := by
    simp only [dateFix]
    rw [hlook]
  rw [hred]
  cases hp : parseIso s with
  | none => rfl
  | some t =>
    obtain ⟨y, m, d⟩ := t
    rfl

/-- C9: during the normalize-then-parse-then-validate sequence, every
record whose date field parses as ISO-8601 has it rewritten to
day-month-year format, and every record whose date field does not parse is
left unchanged for the schema stage. -/
theorem c9_date_reformat (items : List Json)
    (h : ∀ it ∈ items, ∃ kvs s, it = .obj kvs ∧
      Json.lookup dateKey kvs = some (.str s)) :
    ∃ items', datePass (.arr items) = .ok (.arr items') ∧
      items'.length = items.length ∧
      ∀ i, i < items.length → ∀ kvs s,
        items.getD i .null = .obj kvs → Json.lookup dateKey kvs = some (.str s) →
        ((∀ y m d, parseIso s = some (y, m, d) →
            items'.getD i .null = .obj (Json.set kvs dateKey (.str (formatDMY y m d)))) ∧
         (parseIso s = none → items'.getD i .null = .obj kvs)) := by
  have hok : ∀ it ∈ items, ∃ b, dateFix it = .ok b := by
    intro it hit
    obtain ⟨kvs, s, hobj, hlook⟩ := h it hit
    subst hobj
    exact ⟨_, dateFix_obj kvs s hlook⟩
  obtain ⟨items', hm, hlen, hidx⟩ := mapM_ok_index dateFix .null .null items hok
  refine ⟨items', ?_, hlen, ?_⟩
  · simp only [datePass]
    rw [hm]
    rfl
  · intro i hi kvs s hobj hlook
    have hfix := hidx i hi
    rw [hobj, dateFix_obj kvs s hlook] at hfix
    have hval := Except.ok.inj hfix
    constructor
    · intro y m d hp
      rw [hp] at hval
      exact hval.symm
    · intro hp
      rw [hp] at hval
      exact hval.symm

/-- C9 witness: the spec's scenario — `"Дата": "2024-05-01"` is rewritten
to `"01.05.2024"`; a record already in day-month-year form would be left
unchanged (`parseIso "01.05.2024" = none`). -/
theorem c9_date_reformat_witness :
    (∀ it ∈ isoItems, ∃ kvs s, it = .obj kvs ∧
        Json.lookup dateKey kvs = some (.str s)) ∧
      (∃ items', datePass (.arr isoItems) = .ok (.arr items') ∧
        items'.length = isoItems.length ∧
        ∀ i, i < isoItems.length → ∀ kvs s,
          isoItems.getD i .null = .obj kvs →
          Json.lookup dateKey kvs = some (.str s) →
          ((∀ y m d, parseIso s = some (y, m, d) →
              items'.getD i .null = .obj (Json.set kvs dateKey (.str (formatDMY y m d)))) ∧
           (parseIso s = none → items'.getD i .null = .obj kvs))) ∧
      datePass (.arr isoItems) = .ok (.arr [.obj [(dateKey, .str "01.05.2024"),
        (operationKey, .str "Сев"), (dataKey, .str "посеяно 100 га")]]) ∧
      parseIso "01.05.2024" = none := by
  have hhyp : ∀ it ∈ isoItems, ∃ kvs s, it = .obj kvs ∧
      Json.lookup dateKey kvs = some (.str s) := by
    intro it hit
    simp only [isoItems, List.mem_singleton] at hit
    subst hit
    exact ⟨_, "2024-05-01", rfl, rfl⟩
  exact ⟨hhyp, c9_date_reformat isoItems hhyp, rfl, rfl⟩

/-! # C4 — corner ordering -/

theorem argminIdx_le (f : Point → Int) :
    ∀ l : List Point, ∀ p ∈ l, f (l.getD (argminIdx f l) (0, 0)) ≤ f p := by
  intro l
  induction l with
  | nil => intro p hp; simp at hp
  | cons a tl ih =>
    intro p hp
    cases tl with
    | nil =>
      simp only [List.mem_singleton] at hp
      subst hp
      simp [argminIdx, List.getD_cons_zero]
    | cons b rest =>
      simp only [argminIdx]
      split
      · rename_i hlt
        rw [List.getD_cons_succ]
        rcases List.mem_cons.mp hp with rfl | hmem
        · exact le_of_lt hlt
        · exact ih p hmem
      · rename_i hge
        rw [List.getD_cons_zero]
        rcases List.mem_cons.mp hp with rfl | hmem
        · exact le_refl _
        · exact le_trans (not_lt.mp hge) (ih p hmem)

theorem argmaxIdx_le (f : Point → Int) :
    ∀ l : List Point, ∀ p ∈ l, f p ≤ f (l.getD (argmaxIdx f l) (0, 0)) := by
  intro l
  induction l with
  | nil => intro p hp; simp at hp
  | cons a tl ih =>
    intro p hp
    cases tl with
    | nil =>
      simp only [List.mem_singleton] at hp
      subst hp
      simp [argmaxIdx, List.getD_cons_zero]
    | cons b rest =>
      simp only [argmaxIdx]
      split
      · rename_i hlt
        rw [List.getD_cons_succ]
        rcases List.mem_cons.mp hp with rfl | hmem
        · exact le_of_lt hlt
        · exact ih p hmem
      · rename_i hge
        rw [List.getD_cons_zero]
        rcases List.mem_cons.mp hp with rfl | hmem
        · exact le_refl _
        · exact le_trans (ih p hmem) (not_lt.mp hge)

theorem argminIdx_lt_length (f : Point → Int) :
    ∀ l : List Point, l ≠ [] → argminIdx f l < l.length := by
  intro l
  induction l with
  | nil => intro h; exact absurd rfl h
  | cons a tl ih =>
    intro _
    cases tl with
    | nil => simp [argminIdx]
    | cons b rest =>
      simp only [argminIdx]
      split
      · have := ih (by simp)
        simp only [List.length_cons] at this ⊢
        omega
      · simp

theorem argmaxIdx_lt_length (f : Point → Int) :
    ∀ l : List Point, l ≠ [] → argmaxIdx f l < l.length := by
  intro l
  induction l with
  | nil => intro h; exact absurd rfl h
  | cons a tl ih =>
    intro _
    cases tl with
    | nil => simp [argmaxIdx]
    | cons b rest =>
      simp only [argmaxIdx]
      split
      · have := ih (by simp)
        simp only [List.length_cons] at this ⊢
        omega
      · simp

theorem getD_mem_of_lt {l : List Point} {n : Nat} (d : Point)
    (h : n < l.length) : l.getD n d ∈ l := by
  induction l generalizing n with
  | nil => simp at h
  | cons a tl ih =>
    cases n with
    | zero => simp [List.getD_cons_zero]
    | succ m =>
      rw [List.getD_cons_succ]
      exact List.mem_cons_of_mem a (ih (by simpa [Nat.succ_lt_succ_iff] using h))

/-- C4 counterexample to the claim as stated: on the four corners of an
axis-aligned square, `order_points` does not match the spec's rule
(top-right = point minimizing x−y, bottom-left = point maximizing x−y):
the code computes `np.diff` = y−x, so its top-right *maximizes* x−y. -/
theorem c4_order_points_counterexample :
    orderPoints squarePts ≠ orderPointsSpec squarePts ∧
      orderPoints squarePts = [(0, 0), (10, 0), (10, 10), (0, 10)] ∧
      orderPointsSpec squarePts = [(0, 0), (0, 10), (10, 10), (10, 0)] := by
  refine ⟨?_, by decide, by decide⟩
  decide

/-- C4 amended: `order_points` orders the four points so that the first
minimizes x+y (top-left), the third maximizes x+y (bottom-right), the
second minimizes y−x — equivalently maximizes x−y — (top-right), and the
fourth maximizes y−x — equivalently minimizes x−y — (bottom-left); each
output point is one of the inputs. -/
theorem c4_order_points_extrema (pts : List Point) (h : pts.length = 4) :
    (orderPoints pts).length = 4 ∧
      (∀ q ∈ orderPoints pts, q ∈ pts) ∧
      (∀ p ∈ pts, ptSum ((orderPoints pts).getD 0 (0, 0)) ≤ ptSum p) ∧
      (∀ p ∈ pts, ptDiff ((orderPoints pts).getD 1 (0, 0)) ≤ ptDiff p) ∧
      (∀ p ∈ pts, ptSum p ≤ ptSum ((orderPoints pts).getD 2 (0, 0))) ∧
      (∀ p ∈ pts, ptDiff p ≤ ptDiff ((orderPoints pts).getD 3 (0, 0))) := by
  have hne : pts ≠ [] := by
    intro hnil
    rw [hnil] at h
    simp at h
  refine ⟨rfl, ?_, ?_, ?_, ?_, ?_⟩
  · intro q hq
    simp only [orderPoints, List.mem_cons, List.not_mem_nil, or_false] at hq
    rcases hq with rfl | rfl | rfl | rfl
    · exact getD_mem_of_lt _ (argminIdx_lt_length ptSum pts hne)
    · exact getD_mem_of_lt _ (argminIdx_lt_length ptDiff pts hne)
    · exact getD_mem_of_lt _ (argmaxIdx_lt_length ptSum pts hne)
    · exact getD_mem_of_lt _ (argmaxIdx_lt_length ptDiff pts hne)
  · intro p hp
    exact argminIdx_le ptSum pts p hp
  · intro p hp
    exact argminIdx_le ptDiff pts p hp
  · intro p hp
    exact argmaxIdx_le ptSum pts p hp
  · intro p hp
    exact argmaxIdx_le ptDiff pts p hp

/-! # C6 — the correction session -/

theorem buildQueue_eq_from (entries : List Record) :
    buildQueue entries = buildQueueFrom 0 entries := rfl

theorem buildQueueFrom_cons (n : Nat) (e : Record) (es : List Record) :
    buildQueueFrom n (e :: es) =
      (e.filter (fun kv => kv.2 = PyVal.str sentinelValue)).map (fun kv => (n, kv.1))
        ++ buildQueueFrom (n + 1) es := rfl

theorem buildQueueFrom_fst_bounds (n : Nat) :
    ∀ entries : List Record, ∀ p ∈ buildQueueFrom n entries,
      n ≤ p.1 ∧ p.1 < n + entries.length := by
  intro entries
  induction entries generalizing n with
  | nil => intro p hp; simp [buildQueueFrom] at hp
  | cons e es ih =>
    intro p hp
    rw [buildQueueFrom_cons] at hp
    rcases List.mem_append.mp hp with hp | hp
    · obtain ⟨kv, _, hkv⟩ := List.mem_map.mp hp
      subst hkv
      simp
    · have := ih (n + 1) p hp
      constructor
      · omega
      · simp only [List.length_cons]
        omega

theorem buildQueue_fst_lt (entries : List Record) :
    ∀ p ∈ buildQueue entries, p.1 < entries.length := by
  intro p hp
  rw [buildQueue_eq_from] at hp
  have := buildQueueFrom_fst_bounds 0 entries p hp
  omega

/-- Two pairs of a record with duplicate-free keys and the same key are
the same pair. -/
theorem eq_of_keys_nodup (e : Record) (hkeys : (e.map Prod.fst).Nodup) :
    ∀ kv ∈ e, ∀ kv' ∈ e, kv.1 = kv'.1 → kv = kv' := by
  induction e with
  | nil => intro kv h; simp at h
  | cons p rest ih =>
    intro kv hkv kv' hkv' heq
    rw [List.map_cons] at hkeys
    have hnotin : p.1 ∉ rest.map Prod.fst := (List.nodup_cons.mp hkeys).1
    have htl : (rest.map Prod.fst).Nodup := (List.nodup_cons.mp hkeys).2
    rcases List.mem_cons.mp hkv with hkvh | hkvt
    · rcases List.mem_cons.mp hkv' with hkv'h | hkv't
      · rw [hkvh, hkv'h]
      · refine absurd ?_ hnotin
        rw [← hkvh, heq]
        exact List.mem_map_of_mem Prod.fst hkv't
    · rcases List.mem_cons.mp hkv' with hkv'h | hkv't
      · refine absurd ?_ hnotin
        rw [← hkv'h, ← heq]
        exact List.mem_map_of_mem Prod.fst hkvt
      · exact ih htl kv hkvt kv' hkv't heq

theorem buildQueueFrom_nodup (n : Nat) :
    ∀ entries : List Record, (∀ e ∈ entries, (e.map Prod.fst).Nodup) →
      (buildQueueFrom n entries).Nodup := by
  intro entries
  induction entries generalizing n with
  | nil => intro _; simp [buildQueueFrom]
  | cons e es ih =>
    intro h
    rw [buildQueueFrom_cons]
    have hkeys : (e.map Prod.fst).Nodup := h e (List.mem_cons_self e es)
    refine List.Nodup.append ?_ (ih (n + 1)
      (fun x hx => h x (List.mem_cons_of_mem e hx))) ?_
    · refine List.Nodup.map_on ?_
        (List.Nodup.filter _ (List.Nodup.of_map Prod.fst hkeys))
      intro x hx y hy hxy
      have hx' : x ∈ e := List.mem_of_mem_filter hx
      have hy' : y ∈ e := List.mem_of_mem_filter hy
      have : x.1 = y.1 := by
        have := congrArg Prod.snd hxy
        simpa using this
      exact eq_of_keys_nodup e hkeys x hx' y hy' this
    · rw [List.disjoint_left]
      intro a ha hb
      obtain ⟨kv, _, hkv⟩ := List.mem_map.mp ha
      have hbound := (buildQueueFrom_fst_bounds (n + 1) es a hb).1
      rw [← hkv] at hbound
      simp at hbound

theorem buildQueue_nodup (entries : List Record)
    (h : ∀ e ∈ entries, (e.map Prod.fst).Nodup) :
    (buildQueue entries).Nodup := by
  rw [buildQueue_eq_from]
  exact buildQueueFrom_nodup 0 entries h

theorem getD_set_ne {α : Type} (d x : α) :
    ∀ (l : List α) (i j : Nat), i ≠ j → (l.set j x).getD i d = l.getD i d := by
  intro l
  induction l with
  | nil => intro i j _; rfl
  | cons a tl ih =>
    intro i j hne
    cases j with
    | zero =>
      cases i with
      | zero => exact absurd rfl hne
      | succ m => simp [List.set]
    | succ jj =>
      cases i with
      | zero => simp [List.set]
      | succ m =>
        simp only [List.set, List.getD_cons_succ]
        exact ih m jj (fun hmj => hne (by rw [hmj]))

theorem getD_set_self {α : Type} (d x : α) :
    ∀ (l : List α) (i : Nat), i < l.length → (l.set i x).getD i d = x := by
  intro l
  induction l with
  | nil => intro i hi; simp at hi
  | cons a tl ih =>
    intro i hi
    cases i with
    | zero => rfl
    | succ m =>
      simp only [List.set, List.getD_cons_succ]
      exact ih m (by simpa [Nat.succ_lt_succ_iff] using hi)

theorem writeField_length (entries : List Record) (i : Nat) (k : String)
    (v : PyVal) : (writeField entries i k v).length = entries.length := by
  unfold writeField
  exact List.length_set entries i _

theorem lookup_writeField_self (entries : List Record) (i : Nat) (k : String)
    (v : PyVal) (hi : i < entries.length) :
    lookupKey k ((writeField entries i k v).getD i []) = some v := by
  unfold writeField
  rw [getD_set_self _ _ entries i hi]
  exact lookup_setKey_self _ _ _

theorem lookup_writeField_other (entries : List Record) (i : Nat) (k : String)
    (i' : Nat) (k' : String) (v : PyVal) (hne : (i', k') ≠ (i, k)) :
    lookupKey k ((writeField entries i' k' v).getD i []) =
      lookupKey k (entries.getD i []) := by
  unfold writeField
  by_cases hii : i = i'
  · subst hii
    have hkk : k ≠ k' := by
      intro hk
      exact hne (by rw [hk])
    by_cases hlen : i < entries.length
    · rw [getD_set_self _ _ entries i hlen]
      exact lookup_setKey_ne _ _ _ _ hkk
    · rw [List.set_eq_of_length_le (by omega)]
  · rw [getD_set_ne _ _ entries i i' (fun h => hii h)]

theorem applyAnswers_length :
    ∀ (ps : List ((Nat × String) × String)) (entries : List Record),
      (applyAnswers entries ps).length = entries.length := by
  intro ps
  induction ps with
  | nil => intro entries; rfl
  | cons p rest ih =>
    intro entries
    obtain ⟨pair, input⟩ := p
    rw [applyAnswers, ih, writeField_length]

theorem applyAnswers_lookup_preserved :
    ∀ (ps : List ((Nat × String) × String)) (entries : List Record)
      (i : Nat) (k : String), (∀ pr ∈ ps, pr.1 ≠ (i, k)) →
      lookupKey k ((applyAnswers entries ps).getD i []) =
        lookupKey k (entries.getD i []) := by
  intro ps
  induction ps with
  | nil => intro entries i k _; rfl
  | cons p rest ih =>
    intro entries i k h
    obtain ⟨pair, input⟩ := p
    rw [applyAnswers, ih _ i k (fun pr hpr => h pr (List.mem_cons_of_mem _ hpr)),
      lookup_writeField_other _ _ _ _ _ _
        (by simpa using h (pair, input) (List.mem_cons_self _ _))]

/-- After the write sequence, the field at queue position `i` holds the
stripped `i`-th input. -/
theorem applyAnswers_at_index :
    ∀ (queue : List (Nat × String)) (inputs : List String)
      (entries : List Record), queue.Nodup → queue.length = inputs.length →
      (∀ p ∈ queue, p.1 < entries.length) →
      ∀ i, i < queue.length →
        lookupKey (queue.getD i (0, "")).2
            ((applyAnswers entries (queue.zip inputs)).getD
              (queue.getD i (0, "")).1 []) =
          some (.str (String.mk (stripEnds ((inputs.getD i "").data)))) := by
  intro queue
  induction queue with
  | nil => intro inputs entries _ _ _ i hi; simp at hi
  | cons q qs ih =>
    intro inputs entries hnodup hlen hbound i hi
    cases inputs with
    | nil => simp at hlen
    | cons inp inps =>
      rw [List.zip_cons_cons, applyAnswers]
      cases i with
      | zero =>
        simp only [List.getD_cons_zero]
        rw [applyAnswers_lookup_preserved _ _ q.1 q.2 ?_]
        · exact lookup_writeField_self entries q.1 q.2 _
            (hbound q (List.mem_cons_self q qs))
        · intro pr hpr
          have hfst : pr.1 ∈ qs := (List.of_mem_zip hpr).1
          have hq : q ∉ qs := (List.nodup_cons.mp hnodup).1
          intro heq
          rw [show ((q.1, q.2) : Nat × String) = q from rfl] at heq
          rw [heq] at hfst
          exact hq hfst
      | succ j =>
        simp only [List.getD_cons_succ]
        refine ih inps (writeField entries q.1 q.2 (.str (String.mk (stripEnds inp.data))))
          (List.nodup_cons.mp hnodup).2 (by simpa using hlen) ?_ j
          (by simpa [Nat.succ_lt_succ_iff] using hi)
        intro p hp
        rw [writeField_length]
        exact hbound p (List.mem_cons_of_mem q hp)

/-- One intermediate answer on a live session: the stripped input is
written at the cursor's queue pair and the cursor advances, the session
still awaiting. -/
theorem answerStep_mid (E : List Record) (q : List (Nat × String)) (c : Nat)
    (input : String) (hne : ¬input = "") (hlast : c + 1 < q.length) :
    answerStep ⟨E, q, c, true, none⟩ input =
      ⟨writeField E (q.getD c (0, "")).1 (q.getD c (0, "")).2
        (.str (String.mk (stripEnds input.data))), q, c + 1, true, none⟩ := by
  have hcur : ¬q.length ≤ c := by omega
  simp only [answerStep, Bool.not_true, Bool.false_eq_true, if_false,
    if_neg hne, if_neg hcur, if_pos hlast]

/-- The final answer: the write happens and the awaiting flag is popped
(whether or not finalization raises). -/
theorem answerStep_final (E : List Record) (q : List (Nat × String)) (c : Nat)
    (input : String) (hne : ¬input = "") (hcur : c < q.length)
    (hlast : ¬(c + 1 < q.length)) :
    (answerStep ⟨E, q, c, true, none⟩ input).awaiting = false ∧
      (answerStep ⟨E, q, c, true, none⟩ input).cursor = c + 1 := by
  have hcur' : ¬q.length ≤ c := by omega
  simp only [answerStep, Bool.not_true, Bool.false_eq_true, if_false,
    if_neg hne, if_neg hcur', if_neg hlast]
  cases hfin : finalizeEntries (writeField E (q.getD c (0, "")).1
      (q.getD c (0, "")).2 (.str (String.mk (stripEnds input.data)))) with
  | ok fin => exact ⟨rfl, rfl⟩
  | error e => exact ⟨rfl, rfl⟩

/-- Running answers strictly inside the queue writes them in order and
advances the cursor by their number, leaving the session awaiting. -/
theorem runAnswers_mid :
    ∀ (inputs : List String) (E : List Record) (q : List (Nat × String))
      (c : Nat), (∀ inp ∈ inputs, inp ≠ "") → c + inputs.length < q.length →
      runAnswers ⟨E, q, c, true, none⟩ inputs =
        ⟨applyAnswers E (((q.drop c).take inputs.length).zip inputs),
         q, c + inputs.length, true, none⟩ := by
  intro inputs
  induction inputs with
  | nil =>
    intro E q c _ _
    show (⟨E, q, c, true, none⟩ : Session) = _
    rfl
  | cons inp inps ih =>
    intro E q c hne hbound
    have hcur : c < q.length := by
      simp only [List.length_cons] at hbound
      omega
    have hlast : c + 1 < q.length := by
      simp only [List.length_cons] at hbound
      omega
    have hrun : runAnswers (⟨E, q, c, true, none⟩ : Session) (inp :: inps) =
        runAnswers (answerStep ⟨E, q, c, true, none⟩ inp) inps := rfl
    rw [hrun, answerStep_mid E q c inp (hne inp (List.mem_cons_self inp inps)) hlast]
    rw [ih _ q (c + 1) (fun x hx => hne x (List.mem_cons_of_mem inp hx))
      (by simp only [List.length_cons] at hbound; omega)]
    have hdecomp : (q.drop c).take (inp :: inps).length =
        q.getD c (0, "") :: (q.drop (c + 1)).take inps.length := by
      rw [List.drop_eq_getElem_cons hcur, List.getD_eq_getElem _ _ hcur]
      rfl
    rw [hdecomp, List.zip_cons_cons]
    have hc' : c + (inps.length + 1) = c + 1 + inps.length := by omega
    simp only [List.length_cons, hc']
    rfl

/-- C6: for a `CorrectionSession` over records with duplicate-free keys
and a queue of length `N > 0`, exactly `N` non-empty answer inputs move
the session from entry to `Resolved` (`awaiting_correction` popped): every
proper prefix of the inputs leaves it awaiting with the cursor equal to
the number of answers given and the records equal to the write sequence of
those answers, and after all `N` writes the field at queue position `i`
holds the stripped `i`-th input. -/
theorem c6_session_resolves (entries : List Record) (inputs : List String)
    (hkeys : ∀ e ∈ entries, (e.map Prod.fst).Nodup)
    (hlen : inputs.length = (buildQueue entries).length)
    (hpos : 0 < (buildQueue entries).length)
    (hne : ∀ inp ∈ inputs, inp ≠ "") :
    (runAnswers (Session.start entries) inputs).awaiting = false ∧
      (runAnswers (Session.start entries) inputs).cursor = inputs.length ∧
      (∀ k, k < inputs.length →
        (runAnswers (Session.start entries) (inputs.take k)).awaiting = true ∧
        (runAnswers (Session.start entries) (inputs.take k)).entries =
          applyAnswers entries
            (((buildQueue entries).take k).zip (inputs.take k))) ∧
      (∀ i, i < (buildQueue entries).length →
        lookupKey ((buildQueue entries).getD i (0, "")).2
            ((applyAnswers entries ((buildQueue entries).zip inputs)).getD
              ((buildQueue entries).getD i (0, "")).1 []) =
          some (.str (String.mk (stripEnds ((inputs.getD i "").data))))) := by
  have hstart : Session.start entries =
      ⟨entries, buildQueue entries, 0, true, none⟩ := rfl
  have hpartrun : ∀ k, k < inputs.length →
      runAnswers (Session.start entries) (inputs.take k) =
        ⟨applyAnswers entries (((buildQueue entries).take k).zip (inputs.take k)),
         buildQueue entries, k, true, none⟩ := by
    intro k hk
    have htk : (inputs.take k).length = k := by
      rw [List.length_take]
      omega
    rw [hstart, runAnswers_mid (inputs.take k) entries (buildQueue entries) 0
      (fun x hx => hne x (List.mem_of_mem_take hx))
      (by rw [htk]; omega)]
    rw [htk, List.drop_zero, Nat.zero_add]
  have hfinal : (runAnswers (Session.start entries) inputs).awaiting = false ∧
      (runAnswers (Session.start entries) inputs).cursor = inputs.length := by
    have hsplit : ∃ most last, inputs = most ++ [last] := by
      rcases List.eq_nil_or_concat inputs with hnil | ⟨most, last, hc⟩
      · rw [hnil] at hlen
        simp at hlen
        omega
      · exact ⟨most, last, by rw [hc, List.concat_eq_append]⟩
    obtain ⟨most, last, hsplit⟩ := hsplit
    subst hsplit
    have hmostlen : most.length + 1 = (buildQueue entries).length := by
      simpa using hlen
    have hmost := hpartrun most.length (by simp)
    rw [show (most ++ [last]).take most.length = most from by
      rw [List.take_left]] at hmost
    have hrun : runAnswers (Session.start entries) (most ++ [last]) =
        answerStep (runAnswers (Session.start entries) most) last := by
      unfold runAnswers
      rw [List.foldl_append]
      rfl
    rw [hrun, hmost]
    have hstep := answerStep_final
      (applyAnswers entries (((buildQueue entries).take most.length).zip most))
      (buildQueue entries) most.length last
      (hne last (by simp)) (by omega) (by omega)
    refine ⟨hstep.1, ?_⟩
    rw [hstep.2]
    simp
  refine ⟨hfinal.1, hfinal.2,
    fun k hk => ⟨by rw [hpartrun k hk], by rw [hpartrun k hk]⟩, ?_⟩
  exact applyAnswers_at_index (buildQueue entries) inputs entries
    (buildQueue_nodup entries hkeys) hlen.symm
    (fun p hp => buildQueue_fst_lt entries p hp)

/-- C6 witness: a concrete batch with two unresolved fields is resolved by
exactly its two answers, written in queue order. -/
theorem c6_session_resolves_witness :
    sessionInputs.length = (buildQueue sessionEntries).length ∧
      ((runAnswers (Session.start sessionEntries) sessionInputs).awaiting = false ∧
        (runAnswers (Session.start sessionEntries) sessionInputs).cursor =
          sessionInputs.length ∧
        (∀ k, k < sessionInputs.length →
          (runAnswers (Session.start sessionEntries)
            (sessionInputs.take k)).awaiting = true ∧
          (runAnswers (Session.start sessionEntries) (sessionInputs.take k)).entries =
            applyAnswers sessionEntries
              (((buildQueue sessionEntries).take k).zip (sessionInputs.take k))) ∧
        (∀ i, i < (buildQueue sessionEntries).length →
          lookupKey ((buildQueue sessionEntries).getD i (0, "")).2
              ((applyAnswers sessionEntries
                ((buildQueue sessionEntries).zip sessionInputs)).getD
                ((buildQueue sessionEntries).getD i (0, "")).1 []) =
            some (.str (String.mk (stripEnds ((sessionInputs.getD i "").data)))))) :=
  ⟨rfl, c6_session_resolves sessionEntries sessionInputs (by decide) rfl
    (by decide) (by decide)⟩

/-- C4 witness: the amended ordering properties hold on the concrete
square corners. -/
theorem c4_order_points_extrema_witness :
    squarePts.length = 4 ∧
      ((orderPoints squarePts).length = 4 ∧
        (∀ q ∈ orderPoints squarePts, q ∈ squarePts) ∧
        (∀ p ∈ squarePts, ptSum ((orderPoints squarePts).getD 0 (0, 0)) ≤ ptSum p) ∧
        (∀ p ∈ squarePts, ptDiff ((orderPoints squarePts).getD 1 (0, 0)) ≤ ptDiff p) ∧
        (∀ p ∈ squarePts, ptSum p ≤ ptSum ((orderPoints squarePts).getD 2 (0, 0))) ∧
        (∀ p ∈ squarePts, ptDiff p ≤ ptDiff ((orderPoints squarePts).getD 3 (0, 0)))) :=
  ⟨rfl, c4_order_points_extrema squarePts rfl⟩

/-! # C5 — idempotence of `clean_string`

Strategy: a full `clean_string` pass over backslash-free, backtick-free
input produces output that is again backslash- and backtick-free, has all
whitespace as single non-adjacent spaces, no close-bracket/whitespace/
open-bracket pattern, and no surrounding whitespace; on such strings every
substitution of `clean_string` is the identity. -/

theorem stripFences_cons_not_bt (c : Char) (l : List Char) (h : isBT c = false) :
    stripFences (c :: l) = c :: stripFences l := by
  rcases l with _ | ⟨c2, _ | ⟨c3, _ | ⟨c4, _ | ⟨c5, _ | ⟨c6, _ | ⟨c7, rest⟩⟩⟩⟩⟩⟩ <;>
    simp [stripFences, h]

theorem stripFences_id : ∀ l : List Char, (∀ c ∈ l, isBT c = false) →
    stripFences l = l := by
  intro l
  induction l with
  | nil => intro _; rfl
  | cons c tl ih =>
    intro h
    rw [stripFences_cons_not_bt c tl (h c (List.mem_cons_self c tl)),
      ih (fun x hx => h x (List.mem_cons_of_mem c hx))]

theorem stripEscN_id : ∀ l : List Char, '\\' ∉ l → stripEscN l = l := by
  intro l
  induction l with
  | nil => intro _; rfl
  | cons c tl ih =>
    intro h
    have hc : ¬c = '\\' := fun hcc => h (by rw [hcc]; exact List.mem_cons_self _ _)
    have htl : '\\' ∉ tl := fun hx => h (List.mem_cons_of_mem c hx)
    cases tl with
    | nil => rfl
    | cons d r =>
      rw [show stripEscN (c :: d :: r) = c :: stripEscN (d :: r) from by
        simp [stripEscN, hc]]
      rw [ih htl]

theorem stripEscT_id : ∀ l : List Char, '\\' ∉ l → stripEscT l = l := by
  intro l
  induction l with
  | nil => intro _; rfl
  | cons c tl ih =>
    intro h
    have hc : ¬c = '\\' := fun hcc => h (by rw [hcc]; exact List.mem_cons_self _ _)
    have htl : '\\' ∉ tl := fun hx => h (List.mem_cons_of_mem c hx)
    cases tl with
    | nil => rfl
    | cons d r =>
      rw [show stripEscT (c :: d :: r) = c :: stripEscT (d :: r) from by
        simp [stripEscT, hc]]
      rw [ih htl]

theorem fixBadEscape_id : ∀ l : List Char, '\\' ∉ l → fixBadEscape l = l := by
  intro l
  induction l with
  | nil => intro _; rfl
  | cons c tl ih =>
    intro h
    have hc : ¬c = '\\' := fun hcc => h (by rw [hcc]; exact List.mem_cons_self _ _)
    have htl : '\\' ∉ tl := fun hx => h (List.mem_cons_of_mem c hx)
    cases tl with
    | nil => rfl
    | cons d r =>
      rw [show fixBadEscape (c :: d :: r) = c :: fixBadEscape (d :: r) from by
        simp [fixBadEscape, hc]]
      rw [ih htl]

theorem removeNL_id (l : List Char) (h : '\n' ∉ l) : removeNL l = l := by
  unfold removeNL
  rw [List.filter_eq_self]
  intro a ha
  have : ¬a = '\n' := fun he => h (he ▸ ha)
  simp [this]

theorem spacesBlank_mem {l : List Char} (h : spacesBlank l = true) {c : Char}
    (hc : c ∈ l) (hw : pyIsSpace c = true) : c = ' ' := by
  rw [spacesBlank, List.all_eq_true] at h
  have := h c hc
  rw [hw] at this
  simpa using this

theorem spacesBlank_tail {a : Char} {l : List Char}
    (h : spacesBlank (a :: l) = true) : spacesBlank l = true := by
  rw [spacesBlank, List.all_cons, Bool.and_eq_true] at h
  exact h.2

theorem noAdjSpace_tail {a : Char} {l : List Char}
    (h : noAdjSpace (a :: l) = true) : noAdjSpace l = true := by
  cases l with
  | nil => rfl
  | cons b r =>
    rw [noAdjSpace, Bool.and_eq_true] at h
    exact h.2

theorem collapseWs_id : ∀ l : List Char, spacesBlank l = true →
    noAdjSpace l = true → collapseWs l = l := by
  intro l
  induction l with
  | nil => intro _ _; rfl
  | cons a tl ih =>
    intro hsb hadj
    have hsb' := spacesBlank_tail hsb
    have hadj' := noAdjSpace_tail hadj
    by_cases hws : pyIsSpace a = true
    · have ha : a = ' ' := spacesBlank_mem hsb (List.mem_cons_self a tl) hws
      cases tl with
      | nil =>
        rw [show collapseWs [a] = [' '] from by simp [collapseWs, hws], ha]
      | cons d r =>
        have hd : pyIsSpace d = false := by
          cases hdw : pyIsSpace d with
          | false => rfl
          | true =>
            have hd' : d = ' ' :=
              spacesBlank_mem hsb' (List.mem_cons_self d r) hdw
            rw [noAdjSpace, ha, hd', Bool.and_eq_true] at hadj
            simp at hadj
        rw [show collapseWs (a :: d :: r) = ' ' :: collapseWs (d :: r) from by
          simp [collapseWs, hws, hd], ih hsb' hadj', ha]
    · rw [show collapseWs (a :: tl) = a :: collapseWs tl from by
        cases tl <;> simp [collapseWs, hws]]
      rw [ih hsb' hadj']

theorem replaceTab_id (l : List Char) (h : '\t' ∉ l) : replaceTab l = l := by
  unfold replaceTab
  induction l with
  | nil => rfl
  | cons a tl ih =>
    have ha : ¬a = '\t' := fun he => h (by rw [he]; exact List.mem_cons_self _ _)
    rw [List.map_cons, if_neg ha, ih (fun hx => h (List.mem_cons_of_mem a hx))]

theorem insertCommasAux_false_id : ∀ l : List Char, noCWO l = true →
    insertCommasAux false l = l := by
  intro l
  induction l with
  | nil => intro _; rfl
  | cons c rest ih =>
    intro h
    rw [noCWO, Bool.and_eq_true] at h
    obtain ⟨h1, h2⟩ := h
    rw [Bool.not_eq_true'] at h1
    rw [show insertCommasAux false (c :: rest) = c :: insertCommasAux false rest from by
      simp [insertCommasAux, h1]]
    rw [ih h2]

theorem dropWhile_id_of_head (p : Char → Bool) (l : List Char)
    (h : ∀ c, l.head? = some c → p c = false) : l.dropWhile p = l := by
  cases l with
  | nil => rfl
  | cons a tl =>
    rw [List.dropWhile_cons, if_neg]
    simp [h a rfl]

theorem stripEnds_id (l : List Char) (h : strippedB l = true) :
    stripEnds l = l := by
  rw [strippedB, Bool.and_eq_true] at h
  obtain ⟨h1, h2⟩ := h
  unfold stripEnds
  rw [dropWhile_id_of_head pyIsSpace l (by
    intro c hc
    rw [hc] at h1
    simpa using h1)]
  rw [dropWhile_id_of_head pyIsSpace l.reverse (by
    intro c hc
    rw [List.head?_reverse] at hc
    rw [hc] at h2
    simpa using h2)]
  exact List.reverse_reverse l

/-- The second pass of `clean_string` is the identity on output in the
normal form. -/
theorem cleanList_id_of_normal (l : List Char)
    (hbs : '\\' ∉ l) (hbt : ∀ c ∈ l, isBT c = false)
    (hsb : spacesBlank l = true) (hadj : noAdjSpace l = true)
    (hcwo : noCWO l = true) (hstr : strippedB l = true) :
    cleanList l = l := by
  have hnl : '\n' ∉ l := by
    intro hmem
    have := spacesBlank_mem hsb hmem (by decide)
    simp at this
  have htab : '\t' ∉ l := by
    intro hmem
    have := spacesBlank_mem hsb hmem (by decide)
    simp at this
  unfold cleanList
  rw [stripFences_id l hbt, stripEscN_id l hbs, removeNL_id l hnl,
    collapseWs_id l hsb hadj, replaceTab_id l htab, stripEscT_id l hbs,
    fixBadEscape_id l hbs]
  show stripEnds (insertCommasAux false l) = l
  rw [insertCommasAux_false_id l hcwo, stripEnds_id l hstr]

theorem noAdjSpace_cons (a : Char) (X : List Char)
    (hhead : ∀ b, X.head? = some b → ¬(a = ' ' ∧ b = ' '))
    (hX : noAdjSpace X = true) : noAdjSpace (a :: X) = true := by
  cases X with
  | nil => rfl
  | cons b r =>
    rw [noAdjSpace, Bool.and_eq_true]
    refine ⟨?_, hX⟩
    have := hhead b rfl
    simp only [Bool.not_eq_true', Bool.and_eq_false_iff]
    by_cases hab : a = ' '
    · right
      have hb : ¬b = ' ' := fun hb => this ⟨hab, hb⟩
      simp [hb]
    · left
      simp [hab]

theorem collapseWs_cons_not_ws (d : Char) (r : List Char)
    (hd : pyIsSpace d = false) : collapseWs (d :: r) = d :: collapseWs r := by
  cases r <;> simp [collapseWs, hd]

theorem collapseWs_subset : ∀ (l : List Char) (c : Char),
    c ∈ collapseWs l → c ∈ l ∨ c = ' ' := by
  intro l
  induction l with
  | nil => intro c hc; simp [collapseWs] at hc
  | cons a tl ih =>
    intro c hc
    by_cases hws : pyIsSpace a = true
    · cases tl with
      | nil =>
        rw [show collapseWs [a] = [' '] from by simp [collapseWs, hws]] at hc
        simp at hc
        exact Or.inr hc
      | cons d r =>
        by_cases hd : pyIsSpace d = true
        · rw [show collapseWs (a :: d :: r) = collapseWs (d :: r) from by
            simp [collapseWs, hws, hd]] at hc
          rcases ih c hc with h | h
          · exact Or.inl (List.mem_cons_of_mem a h)
          · exact Or.inr h
        · rw [show collapseWs (a :: d :: r) = ' ' :: collapseWs (d :: r) from by
            simp [collapseWs, hws, hd]] at hc
          rcases List.mem_cons.mp hc with h | h
          · exact Or.inr h
          · rcases ih c h with h' | h'
            · exact Or.inl (List.mem_cons_of_mem a h')
            · exact Or.inr h'
    · rw [collapseWs_cons_not_ws a tl (by simpa using hws)] at hc
      rcases List.mem_cons.mp hc with h | h
      · exact Or.inl (h ▸ List.mem_cons_self a tl)
      · rcases ih c h with h' | h'
        · exact Or.inl (List.mem_cons_of_mem a h')
        · exact Or.inr h'

theorem collapseWs_spacesBlank : ∀ l : List Char,
    spacesBlank (collapseWs l) = true := by
  intro l
  induction l with
  | nil => rfl
  | cons a tl ih =>
    by_cases hws : pyIsSpace a = true
    · cases tl with
      | nil =>
        rw [show collapseWs [a] = [' '] from by simp [collapseWs, hws]]
        rfl
      | cons d r =>
        by_cases hd : pyIsSpace d = true
        · rw [show collapseWs (a :: d :: r) = collapseWs (d :: r) from by
            simp [collapseWs, hws, hd]]
          exact ih
        · rw [show collapseWs (a :: d :: r) = ' ' :: collapseWs (d :: r) from by
            simp [collapseWs, hws, hd]]
          rw [spacesBlank, List.all_cons, Bool.and_eq_true]
          exact ⟨by decide, ih⟩
    · rw [collapseWs_cons_not_ws a tl (by simpa using hws)]
      rw [spacesBlank, List.all_cons, Bool.and_eq_true]
      refine ⟨?_, ih⟩
      simp [hws]

theorem collapseWs_noAdjSpace : ∀ l : List Char,
    noAdjSpace (collapseWs l) = true := by
  intro l
  induction l with
  | nil => rfl
  | cons a tl ih =>
    by_cases hws : pyIsSpace a = true
    · cases tl with
      | nil =>
        rw [show collapseWs [a] = [' '] from by simp [collapseWs, hws]]
        rfl
      | cons d r =>
        by_cases hd : pyIsSpace d = true
        · rw [show collapseWs (a :: d :: r) = collapseWs (d :: r) from by
            simp [collapseWs, hws, hd]]
          exact ih
        · rw [show collapseWs (a :: d :: r) = ' ' :: collapseWs (d :: r) from by
            simp [collapseWs, hws, hd]]
          refine noAdjSpace_cons _ _ ?_ ih
          intro b hb
          rw [collapseWs_cons_not_ws d r (by simpa using hd),
            List.head?_cons, Option.some.injEq] at hb
          intro hcontra
          apply hd
          rw [hb, hcontra.2]
          decide
    · rw [collapseWs_cons_not_ws a tl (by simpa using hws)]
      refine noAdjSpace_cons _ _ ?_ ih
      intro b _
      intro hcontra
      rw [hcontra.1] at hws
      simp [pyIsSpace] at hws

theorem isClose_not_ws {c : Char} (h : pyIsSpace c = true) : isClose c = false := by
  cases hcc : isClose c
  · rfl
  · rw [isClose, Bool.or_eq_true] at hcc
    rcases hcc with hcc | hcc <;>
      (rw [decide_eq_true_eq] at hcc; subst hcc; simp [pyIsSpace] at h)

theorem isOpen_not_close {c : Char} (h : isOpen c = true) : isClose c = false := by
  rw [isOpen, Bool.or_eq_true] at h
  rcases h with h | h <;> (rw [decide_eq_true_eq] at h; subst h; rfl)

theorem insertCommasAux_false_head (c : Char) (r : List Char) :
    (insertCommasAux false (c :: r)).head? = some c := by
  by_cases hm : (isClose c && hasWsOpen r) = true <;>
    simp [insertCommasAux, hm]

theorem insertCommasAux_subset : ∀ (l : List Char) (b : Bool) (c : Char),
    c ∈ insertCommasAux b l → c ∈ l ∨ c = ',' := by
  intro l
  induction l with
  | nil => intro b c hc; cases b <;> simp [insertCommasAux] at hc
  | cons a rest ih =>
    intro b c hc
    cases b with
    | true =>
      by_cases hws : pyIsSpace a = true
      · rw [show insertCommasAux true (a :: rest) = insertCommasAux true rest from by
          simp [insertCommasAux, hws]] at hc
        rcases ih true c hc with h | h
        · exact Or.inl (List.mem_cons_of_mem a h)
        · exact Or.inr h
      · rw [show insertCommasAux true (a :: rest) =
            a :: insertCommasAux false rest from by
          simp [insertCommasAux, hws]] at hc
        rcases List.mem_cons.mp hc with h | h
        · exact Or.inl (h ▸ List.mem_cons_self a rest)
        · rcases ih false c h with h' | h'
          · exact Or.inl (List.mem_cons_of_mem a h')
          · exact Or.inr h'
    | false =>
      by_cases hm : (isClose a && hasWsOpen rest) = true
      · rw [show insertCommasAux false (a :: rest) =
            a :: ',' :: insertCommasAux true rest from by
          simp [insertCommasAux, hm]] at hc
        rcases List.mem_cons.mp hc with h | h
        · exact Or.inl (h ▸ List.mem_cons_self a rest)
        · rcases List.mem_cons.mp h with h2 | h2
          · exact Or.inr h2
          · rcases ih true c h2 with h' | h'
            · exact Or.inl (List.mem_cons_of_mem a h')
            · exact Or.inr h'
      · rw [show insertCommasAux false (a :: rest) =
            a :: insertCommasAux false rest from by
          simp [insertCommasAux, hm]] at hc
        rcases List.mem_cons.mp hc with h | h
        · exact Or.inl (h ▸ List.mem_cons_self a rest)
        · rcases ih false c h with h' | h'
          · exact Or.inl (List.mem_cons_of_mem a h')
          · exact Or.inr h'

theorem hasWsOpen_cons (c : Char) (r : List Char) :
    hasWsOpen (c :: r) = if pyIsSpace c = true then hasWsOpen r else isOpen c :=
  rfl

theorem hasWsOpen_insertCommasAux_false : ∀ l : List Char,
    hasWsOpen (insertCommasAux false l) = hasWsOpen l := by
  intro l
  induction l with
  | nil => rfl
  | cons c rest ih =>
    by_cases hws : pyIsSpace c = true
    · have hnc : (isClose c && hasWsOpen rest) = false := by
        rw [isClose_not_ws hws]
        rfl
      rw [show insertCommasAux false (c :: rest) =
          c :: insertCommasAux false rest from by
        simp [insertCommasAux, hnc]]
      rw [hasWsOpen_cons c (insertCommasAux false rest), hasWsOpen_cons c rest,
        if_pos hws, if_pos hws]
      exact ih
    · by_cases hm : (isClose c && hasWsOpen rest) = true
      · rw [show insertCommasAux false (c :: rest) =
            c :: ',' :: insertCommasAux true rest from by
          simp [insertCommasAux, hm]]
        rw [hasWsOpen_cons c (',' :: insertCommasAux true rest),
          hasWsOpen_cons c rest, if_neg hws, if_neg hws]
      · rw [show insertCommasAux false (c :: rest) =
            c :: insertCommasAux false rest from by
          simp [insertCommasAux, hm]]
        rw [hasWsOpen_cons c (insertCommasAux false rest), hasWsOpen_cons c rest,
          if_neg hws, if_neg hws]

theorem insertCommasAux_true_eq : ∀ l : List Char, hasWsOpen l = true →
    insertCommasAux true l = insertCommasAux false (l.dropWhile pyIsSpace) := by
  intro l
  induction l with
  | nil => intro h; simp [hasWsOpen] at h
  | cons c rest ih =>
    intro h
    by_cases hws : pyIsSpace c = true
    · rw [show insertCommasAux true (c :: rest) = insertCommasAux true rest from by
        simp [insertCommasAux, hws]]
      rw [List.dropWhile_cons, if_pos hws]
      apply ih
      rw [hasWsOpen, if_pos hws] at h
      exact h
    · have hopen : isOpen c = true := by
        rw [hasWsOpen, if_neg hws] at h
        exact h
      have hnc : isClose c = false := isOpen_not_close hopen
      rw [show insertCommasAux true (c :: rest) =
          c :: insertCommasAux false rest from by
        simp [insertCommasAux, hws]]
      rw [List.dropWhile_cons, if_neg hws]
      rw [show insertCommasAux false (c :: rest) =
          c :: insertCommasAux false rest from by
        simp [insertCommasAux, hnc]]

theorem noAdjSpace_dropWhile (p : Char → Bool) : ∀ l : List Char,
    noAdjSpace l = true → noAdjSpace (l.dropWhile p) = true := by
  intro l
  induction l with
  | nil => intro _; rfl
  | cons a tl ih =>
    intro h
    rw [List.dropWhile_cons]
    split
    · exact ih (noAdjSpace_tail h)
    · exact h

theorem noCWO_tail {a : Char} {l : List Char} (h : noCWO (a :: l) = true) :
    noCWO l = true := by
  rw [noCWO, Bool.and_eq_true] at h
  exact h.2

theorem noCWO_dropWhile (p : Char → Bool) : ∀ l : List Char,
    noCWO l = true → noCWO (l.dropWhile p) = true := by
  intro l
  induction l with
  | nil => intro _; rfl
  | cons a tl ih =>
    intro h
    rw [List.dropWhile_cons]
    split
    · exact ih (noCWO_tail h)
    · exact h

theorem spacesBlank_dropWhile (p : Char → Bool) (l : List Char)
    (h : spacesBlank l = true) : spacesBlank (l.dropWhile p) = true := by
  rw [spacesBlank, List.all_eq_true] at h ⊢
  intro c hc
  exact h c (List.Sublist.mem hc (List.dropWhile_sublist p))

theorem insertCommasAux_false_noAdj : ∀ (n : Nat) (l : List Char),
    l.length ≤ n → spacesBlank l = true → noAdjSpace l = true →
    noAdjSpace (insertCommasAux false l) = true := by
  intro n
  induction n with
  | zero =>
    intro l hl _ _
    rw [List.eq_nil_of_length_eq_zero (Nat.le_zero.mp hl)]
    rfl
  | succ n ih =>
    intro l hl hsb hadj
    cases l with
    | nil => rfl
    | cons c rest =>
      have hrestlen : rest.length ≤ n := by
        simp only [List.length_cons] at hl
        omega
      by_cases hm : (isClose c && hasWsOpen rest) = true
      · have hwo : hasWsOpen rest = true := by
          have hm' := hm
          rw [Bool.and_eq_true] at hm'
          exact hm'.2
        rw [show insertCommasAux false (c :: rest) =
            c :: ',' :: insertCommasAux true rest from by
          simp [insertCommasAux, hm]]
        rw [insertCommasAux_true_eq rest hwo]
        refine noAdjSpace_cons _ _ ?_ (noAdjSpace_cons _ _ ?_
          (ih _ (le_trans (List.Sublist.length_le (List.dropWhile_sublist _)) hrestlen)
            (spacesBlank_dropWhile _ _ (spacesBlank_tail hsb))
            (noAdjSpace_dropWhile _ _ (noAdjSpace_tail hadj))))
        · intro b hb
          rw [List.head?_cons, Option.some.injEq] at hb
          intro hcontra
          rw [← hb] at hcontra
          exact absurd hcontra.2 (by decide)
        · intro b _
          intro hcontra
          exact absurd hcontra.1 (by decide)
      · rw [show insertCommasAux false (c :: rest) =
            c :: insertCommasAux false rest from by
          simp [insertCommasAux, hm]]
        refine noAdjSpace_cons _ _ ?_
          (ih rest hrestlen (spacesBlank_tail hsb) (noAdjSpace_tail hadj))
        intro b hb
        cases rest with
        | nil => simp [insertCommasAux] at hb
        | cons d r =>
          rw [insertCommasAux_false_head d r, Option.some.injEq] at hb
          intro hcontra
          obtain ⟨hc', hb'⟩ := hcontra
          rw [noAdjSpace] at hadj
          rw [hc', hb, hb'] at hadj
          simp at hadj

theorem insertCommasAux_false_noCWO : ∀ (n : Nat) (l : List Char),
    l.length ≤ n → noCWO (insertCommasAux false l) = true := by
  intro n
  induction n with
  | zero =>
    intro l hl
    rw [List.eq_nil_of_length_eq_zero (Nat.le_zero.mp hl)]
    rfl
  | succ n ih =>
    intro l hl
    cases l with
    | nil => rfl
    | cons c rest =>
      have hrestlen : rest.length ≤ n := by
        simp only [List.length_cons] at hl
        omega
      by_cases hm : (isClose c && hasWsOpen rest) = true
      · have hwo : hasWsOpen rest = true := by
          have hm' := hm
          rw [Bool.and_eq_true] at hm'
          exact hm'.2
        rw [show insertCommasAux false (c :: rest) =
            c :: ',' :: insertCommasAux true rest from by
          simp [insertCommasAux, hm]]
        rw [insertCommasAux_true_eq rest hwo]
        rw [noCWO, noCWO, Bool.and_eq_true, Bool.and_eq_true]
        refine ⟨?_, ?_, ih _
          (le_trans (List.Sublist.length_le (List.dropWhile_sublist _)) hrestlen)⟩
        · have h1 : hasWsOpen (',' ::
              insertCommasAux false (rest.dropWhile pyIsSpace)) = false := by
            rw [hasWsOpen, if_neg (by decide)]
            decide
          rw [h1]
          simp
        · rw [show isClose ',' = false from by decide]
          rfl
      · rw [show insertCommasAux false (c :: rest) =
            c :: insertCommasAux false rest from by
          simp [insertCommasAux, hm]]
        rw [noCWO, Bool.and_eq_true]
        refine ⟨?_, ih rest hrestlen⟩
        rw [hasWsOpen_insertCommasAux_false rest]
        have hfalse : (isClose c && hasWsOpen rest) = false := by
          cases h' : (isClose c && hasWsOpen rest)
          · rfl
          · exact absurd h' hm
        rw [hfalse]
        rfl

theorem dropWhile_head_false (p : Char → Bool) : ∀ (l : List Char) (c : Char)
    (t : List Char), l.dropWhile p = c :: t → p c = false := by
  intro l
  induction l with
  | nil => intro c t h; simp at h
  | cons a tl ih =>
    intro c t h
    rw [List.dropWhile_cons] at h
    split at h
    · exact ih c t h
    · rename_i hpa
      injection h with h1 _
      rw [← h1]
      cases hb : p a
      · rfl
      · exact absurd hb hpa

/-- `stripEnds l` is a prefix of `l.dropWhile pyIsSpace`. -/
theorem dropWhile_prefix_decomp (p : Char → Bool) (u : List Char) :
    u = (u.reverse.dropWhile p).reverse ++ (u.reverse.takeWhile p).reverse := by
  calc u = u.reverse.reverse := (List.reverse_reverse u).symm
    _ = (u.reverse.takeWhile p ++ u.reverse.dropWhile p).reverse := by
        rw [List.takeWhile_append_dropWhile]
    _ = (u.reverse.dropWhile p).reverse ++ (u.reverse.takeWhile p).reverse :=
        List.reverse_append _ _

theorem noAdjSpace_append_left : ∀ (a b : List Char),
    noAdjSpace (a ++ b) = true → noAdjSpace a = true := by
  intro a
  induction a with
  | nil => intro b _; rfl
  | cons x xs ih =>
    intro b h
    cases xs with
    | nil => rfl
    | cons y ys =>
      rw [List.cons_append, List.cons_append, noAdjSpace, Bool.and_eq_true] at h
      rw [noAdjSpace, Bool.and_eq_true]
      refine ⟨h.1, ih b ?_⟩
      rw [List.cons_append]
      exact h.2

theorem hasWsOpen_append_of : ∀ (a b : List Char),
    hasWsOpen a = true → hasWsOpen (a ++ b) = true := by
  intro a
  induction a with
  | nil => intro b h; simp [hasWsOpen] at h
  | cons c r ih =>
    intro b h
    rw [hasWsOpen_cons] at h
    rw [List.cons_append, hasWsOpen_cons]
    by_cases hws : pyIsSpace c = true
    · rw [if_pos hws] at h ⊢
      exact ih b h
    · rw [if_neg hws] at h ⊢
      exact h

theorem noCWO_append_left : ∀ (a b : List Char),
    noCWO (a ++ b) = true → noCWO a = true := by
  intro a
  induction a with
  | nil => intro b _; rfl
  | cons c r ih =>
    intro b h
    rw [List.cons_append, noCWO, Bool.and_eq_true] at h
    rw [noCWO, Bool.and_eq_true]
    refine ⟨?_, ih b h.2⟩
    have h1 := h.1
    rw [Bool.not_eq_true'] at h1 ⊢
    cases hcc : isClose c
    · rfl
    · simp only [Bool.true_and] at h1 ⊢
      cases hwr : hasWsOpen r
      · rfl
      · rw [hasWsOpen_append_of r b hwr, hcc] at h1
        simp at h1

theorem spacesBlank_subset (l₁ l₂ : List Char) (hsub : ∀ c ∈ l₁, c ∈ l₂)
    (h : spacesBlank l₂ = true) : spacesBlank l₁ = true := by
  rw [spacesBlank, List.all_eq_true] at h ⊢
  intro c hc
  exact h c (hsub c hc)

theorem stripEnds_subset (l : List Char) : ∀ c ∈ stripEnds l, c ∈ l := by
  intro c hc
  unfold stripEnds at hc
  rw [List.mem_reverse] at hc
  have hc2 := List.Sublist.mem hc (List.dropWhile_sublist pyIsSpace)
  rw [List.mem_reverse] at hc2
  exact List.Sublist.mem hc2 (List.dropWhile_sublist pyIsSpace)

theorem noAdjSpace_stripEnds (l : List Char) (h : noAdjSpace l = true) :
    noAdjSpace (stripEnds l) = true := by
  have hu : noAdjSpace (l.dropWhile pyIsSpace) = true := noAdjSpace_dropWhile _ _ h
  rw [dropWhile_prefix_decomp pyIsSpace (l.dropWhile pyIsSpace)] at hu
  exact noAdjSpace_append_left _ _ hu

theorem noCWO_stripEnds (l : List Char) (h : noCWO l = true) :
    noCWO (stripEnds l) = true := by
  have hu : noCWO (l.dropWhile pyIsSpace) = true := noCWO_dropWhile _ _ h
  rw [dropWhile_prefix_decomp pyIsSpace (l.dropWhile pyIsSpace)] at hu
  exact noCWO_append_left _ _ hu

theorem stripEnds_strippedB (l : List Char) : strippedB (stripEnds l) = true := by
  rw [strippedB, Bool.and_eq_true]
  constructor
  · cases hse : stripEnds l with
    | nil => rfl
    | cons c0 t0 =>
      have hdecomp := dropWhile_prefix_decomp pyIsSpace (l.dropWhile pyIsSpace)
      have hu : l.dropWhile pyIsSpace = (c0 :: t0) ++
          ((l.dropWhile pyIsSpace).reverse.takeWhile pyIsSpace).reverse := by
        rw [← hse]
        exact hdecomp
      rw [List.cons_append] at hu
      have hpc := dropWhile_head_false pyIsSpace l c0 _ hu
      show (!pyIsSpace c0) = true
      simp [hpc]
  · cases hse : (stripEnds l).getLast? with
    | none => rfl
    | some c0 =>
      have heq : (stripEnds l).getLast? =
          ((l.dropWhile pyIsSpace).reverse.dropWhile pyIsSpace).head? :=
        List.getLast?_reverse _
      rw [heq] at hse
      cases hw : (l.dropWhile pyIsSpace).reverse.dropWhile pyIsSpace with
      | nil => rw [hw] at hse; simp at hse
      | cons c1 t1 =>
        rw [hw, List.head?_cons, Option.some.injEq] at hse
        have hpc := dropWhile_head_false pyIsSpace
          (l.dropWhile pyIsSpace).reverse c1 t1 hw
        show (!pyIsSpace c0) = true
        rw [← hse]
        simp [hpc]

/-- A full `clean_string` pass over backslash-free, backtick-free input
produces output in the normal form. -/
theorem cleanList_normal (l : List Char) (hbs : '\\' ∉ l)
    (hbt : ∀ c ∈ l, isBT c = false) :
    ('\\' ∉ cleanList l) ∧ (∀ c ∈ cleanList l, isBT c = false) ∧
      spacesBlank (cleanList l) = true ∧ noAdjSpace (cleanList l) = true ∧
      noCWO (cleanList l) = true ∧ strippedB (cleanList l) = true := by
  have husub : ∀ c ∈ collapseWs (removeNL l), c ∈ l ∨ c = ' ' := by
    intro c hc
    rcases collapseWs_subset (removeNL l) c hc with h | h
    · exact Or.inl (List.mem_of_mem_filter h)
    · exact Or.inr h
  have hubs : '\\' ∉ collapseWs (removeNL l) := by
    intro hc
    rcases husub _ hc with h | h
    · exact hbs h
    · exact absurd h (by decide)
  have husb : spacesBlank (collapseWs (removeNL l)) = true :=
    collapseWs_spacesBlank (removeNL l)
  have huadj : noAdjSpace (collapseWs (removeNL l)) = true :=
    collapseWs_noAdjSpace (removeNL l)
  have hutab : '\t' ∉ collapseWs (removeNL l) := by
    intro hmem
    have := spacesBlank_mem husb hmem (by decide)
    simp at this
  have hclean : cleanList l = stripEnds (insertCommas (collapseWs (removeNL l))) := by
    unfold cleanList
    rw [stripFences_id l hbt, stripEscN_id l hbs,
      replaceTab_id _ hutab, stripEscT_id _ hubs, fixBadEscape_id _ hubs]
  have hwsub : ∀ c ∈ insertCommas (collapseWs (removeNL l)),
      c ∈ collapseWs (removeNL l) ∨ c = ',' := by
    intro c hc
    exact insertCommasAux_subset _ false c hc
  have hwbs : '\\' ∉ insertCommas (collapseWs (removeNL l)) := by
    intro hc
    rcases hwsub _ hc with h | h
    · exact hubs h
    · exact absurd h (by decide)
  have hwbt : ∀ c ∈ insertCommas (collapseWs (removeNL l)), isBT c = false := by
    intro c hc
    rcases hwsub c hc with h | h
    · rcases husub c h with h' | h'
      · exact hbt c h'
      · rw [h']; rfl
    · rw [h]; rfl
  have hwsb : spacesBlank (insertCommas (collapseWs (removeNL l))) = true := by
    rw [spacesBlank, List.all_eq_true]
    intro c hc
    rcases hwsub c hc with h | h
    · rw [spacesBlank, List.all_eq_true] at husb
      exact husb c h
    · rw [h]
      decide
  have hwadj : noAdjSpace (insertCommas (collapseWs (removeNL l))) = true :=
    insertCommasAux_false_noAdj (collapseWs (removeNL l)).length _
      (le_refl _) husb huadj
  have hwcwo : noCWO (insertCommas (collapseWs (removeNL l))) = true :=
    insertCommasAux_false_noCWO (collapseWs (removeNL l)).length _ (le_refl _)
  rw [hclean]
  refine ⟨?_, ?_, ?_, ?_, ?_, ?_⟩
  · intro hc
    exact hwbs (stripEnds_subset _ _ hc)
  · intro c hc
    exact hwbt c (stripEnds_subset _ _ hc)
  · exact spacesBlank_subset _ _ (stripEnds_subset _) hwsb
  · exact noAdjSpace_stripEnds _ hwadj
  · exact noCWO_stripEnds _ hwcwo
  · exact stripEnds_strippedB _

set_option maxHeartbeats 1600000 in
/-- C5 counterexample to the claim as stated: a schema-valid JSON report
whose free-text field contains the JSON escape `\\` followed by `x` is
changed again by a second `clean_string` pass — the backslash-doubling
substitution re-applies to its own output. -/
theorem c5_not_idempotent_counterexample :
    cleanString (cleanString escCexStr) ≠ cleanString escCexStr := by
  decide

/-- C5 amended: `clean_string` is idempotent on every string containing
neither a backslash nor a backtick — in particular on backslash-free,
backtick-free JSON satisfying the schema. -/
theorem c5_clean_idempotent (s : String) (hbs : '\\' ∉ s.data)
    (hbt : ∀ c ∈ s.data, isBT c = false) :
    cleanString (cleanString s) = cleanString s := by
  obtain ⟨p1, p2, p3, p4, p5, p6⟩ := cleanList_normal s.data hbs hbt
  unfold cleanString
  exact congrArg String.mk (cleanList_id_of_normal _ p1 p2 p3 p4 p5 p6)

/-- C5 witness: a backslash- and backtick-free schema-shaped JSON string
with a missing comma and stray whitespace. -/
theorem c5_clean_idempotent_witness :
    ('\\' ∉ cleanWitnessStr.data) ∧ (∀ c ∈ cleanWitnessStr.data, isBT c = false) ∧
      cleanString (cleanString cleanWitnessStr) = cleanString cleanWitnessStr :=
  ⟨by decide, by decide, c5_clean_idempotent cleanWitnessStr (by decide) (by decide)⟩

end AgroSpec
